import Mathlib

/-!
Verification of the fixed-width big-integer engine in `src/bigint.h`
(template `Bigint<bits>`, default `bits = 64`).

A `Bigint<bits>` stores its number as `bits / 32` unsigned 32-bit words in
little-endian word order.  We embed the storage array as a `List Nat` of
words (little-endian, each word `< 2^32`); casts to `unsigned int` in the
source become `% 2^32`, casts to `unsigned long long` become `% 2^64`.
The `unsigned short` loop counters of the source are modelled as plain
naturals; this is exact for every word count `n ≤ 2^15`, in particular for
the default two-word instantiation used throughout the tests here.
-/

set_option maxRecDepth 8000

/-- Word base of the storage array: `sizeof(unsigned int) * 8 = 32` bits. -/
def wordB : Nat := 2 ^ 32

/-- Binary length of a word computed with explicit fuel (structural, so that
concrete evaluation reduces); `bitLen w` below instantiates the fuel at the
word size 32. -/
def bitLenF : Nat → Nat → Nat
  | 0, _ => 0
  | fuel + 1, w => if w = 0 then 0 else bitLenF fuel (w / 2) + 1

/-- Number of binary digits of a 32-bit word `w`, the value of
`32 - __builtin_clz(w)` for `w ≠ 0` (and 0 for `w = 0`). -/
def bitLen (w : Nat) : Nat := bitLenF 32 w

/-- Value of a little-endian word list, the abstraction function for the
`storage` array of `Bigint`. -/
def toVal : List Nat → Nat
  | [] => 0
  | w :: ws => w + wordB * toVal ws

/-- Bounds invariant of a storage array: every word fits 32 bits. -/
def WordsOk (ws : List Nat) : Prop := ∀ w ∈ ws, w < wordB

instance : DecidablePred WordsOk := fun ws =>
  inferInstanceAs (Decidable (∀ w ∈ ws, w < wordB))

namespace Bigint

/-- Storage allocated by the default / from-integer constructor before the
explicit stores: `new unsigned int[bits/32]{0}`. -/
def zeros (n : Nat) : List Nat := List.replicate n 0

/-- Embedding of `Bigint<bits>::Bigint(const unsigned long long &x)`.
The source executes `storage[0] = x; storage[1] = x >> 32;` with no bounds
test; `List.set` drops the out-of-range store when `n < 2` (the source
instead writes past the end of the allocation there — claim C6 covers this
divergence, and `ofULLStores` below records the raw store sequence). -/
def ofULL (n : Nat) (x : Nat) : List Nat :=
  (((zeros n).set 0 (x % 2 ^ 64 % wordB)).set 1 (x % 2 ^ 64 / wordB % wordB))

/-- Store sequence `(index, value)` executed by the from-integer
constructor, exactly as written in the source: both stores happen
unconditionally, whatever the word count `bits / 32` is. -/
def ofULLStores (x : Nat) : List (Nat × Nat) :=
  [(0, x % 2 ^ 64 % wordB), (1, x % 2 ^ 64 / wordB % wordB)]

/-- Embedding of `Bigint::operator==`: word-wise comparison loop. -/
def eqWords : List Nat → List Nat → Bool
  | a :: as_, b :: bs => a == b && eqWords as_ bs
  | _, _ => true

/-- Embedding of `Bigint::operator!=`: returns true at the first mismatching
word. -/
def neWords : List Nat → List Nat → Bool
  | a :: as_, b :: bs => a != b || neWords as_ bs
  | _, _ => false

/-- Scan of `Bigint::operator<` over the words in most-significant-first
order: the first position where at least one word is non-zero decides. -/
def ltScan : List Nat → List Nat → Bool
  | a :: as_, b :: bs => if a ≠ 0 ∨ b ≠ 0 then decide (a < b) else ltScan as_ bs
  | _, _ => false

/-- Embedding of `Bigint::operator<` (the loop runs from the MSB down, hence
the reversal of the little-endian storage). -/
def lt (x y : List Nat) : Bool := ltScan x.reverse y.reverse

/-- Scan of `Bigint::operator>` over the words in most-significant-first
order. -/
def gtScan : List Nat → List Nat → Bool
  | a :: as_, b :: bs => if a ≠ 0 ∨ b ≠ 0 then decide (a > b) else gtScan as_ bs
  | _, _ => false

/-- Embedding of `Bigint::operator>`. -/
def gt (x y : List Nat) : Bool := gtScan x.reverse y.reverse

/-- Scan of `Bigint::num_bits` from the most significant word down: skip
zero words while more than one word remains, then count the bits of the
word found (`32 - __builtin_clz(w)` is `Nat.size w`). -/
def numBitsScan : List Nat → Nat
  | [] => 0
  | w :: ws =>
    if w = 0 ∧ ws ≠ [] then numBitsScan ws
    else if w = 0 then 0 else 32 * ws.length + bitLen w

/-- Embedding of `Bigint::num_bits`. -/
def num_bits (x : List Nat) : Nat := numBitsScan x.reverse

/-- Embedding of `Bigint::is_even`: least significant bit of word 0. -/
def is_even (x : List Nat) : Bool := (x.headD 0) % 2 == 0

/-- Embedding of `Bigint::is_odd`. -/
def is_odd (x : List Nat) : Bool := (x.headD 0) % 2 == 1

/-- Carry loop of `Bigint::operator+`: `temp` is the 64-bit sum of the two
words and the incoming carry, the stored word is its low half and the new
carry its high half. -/
def addWords : List Nat → List Nat → Nat → List Nat
  | a :: as_, b :: bs, carry =>
    (a + b + carry) % wordB :: addWords as_ bs ((a + b + carry) / wordB)
  | _, _, _ => []

/-- Embedding of `Bigint::operator+`. -/
def add (x y : List Nat) : List Nat := addWords x y 0

/-- Borrow loop of `Bigint::operator-`: `temp` is the wrapping 64-bit
difference `a - (b + borrow)` and the next borrow is `temp >> 63`. -/
def subWords : List Nat → List Nat → Nat → List Nat
  | a :: as_, b :: bs, borrow =>
    ((a + 2 ^ 64 - (b + borrow)) % 2 ^ 64) % wordB ::
      subWords as_ bs (((a + 2 ^ 64 - (b + borrow)) % 2 ^ 64) / 2 ^ 63)
  | _, _, _ => []

/-- Embedding of `Bigint::operator-`. -/
def sub (x y : List Nat) : List Nat := subWords x y 0

/-- Inner loop of the schoolbook `Bigint::operator*` for one word `xi` of
the left operand: runs over the words of `y` and the suffix of the result
array starting at position `i`, stopping (and dropping the carry) when the
result array ends, exactly as the `k < bits/32` test does. -/
def mulRow (xi : Nat) : List Nat → List Nat → Nat → List Nat
  | yj :: ys, rk :: rs, carry =>
    (rk + xi * yj + carry) % wordB :: mulRow xi ys rs ((rk + xi * yj + carry) / wordB)
  | _, rs, _ => rs

/-- Outer loop of `Bigint::operator*`: one `mulRow` per word of `x`, each
row one position further left (the result word at the current position is
final once its row is done). -/
def mulLoop : List Nat → List Nat → List Nat → List Nat
  | [], _, res => res
  | xi :: xs, ys, res =>
    match mulRow xi ys res 0 with
    | [] => []
    | r :: rs => r :: mulLoop xs ys rs

/-- Embedding of `Bigint::operator*` (result truncated to the operand
width). -/
def mul (x y : List Nat) : List Nat := mulLoop x y (zeros x.length)

/-- Embedding of `Bigint::operator<<`.  A shift of `bits` or more gives the
zero value; otherwise each destination word merges the two source words
that overlap it (`lshift = 0` avoiding the undefined `>> 32`). -/
def shl (x : List Nat) (s : Nat) : List Nat :=
  let n := x.length
  if 32 * n ≤ s then zeros n
  else
    let fs := s / 32
    let l := s % 32
    (List.range n).map fun i =>
      if i < fs then 0
      else if i = fs then x.getD 0 0 * 2 ^ l % wordB
      else if l = 0 then x.getD (i - fs) 0
      else x.getD (i - fs) 0 * 2 ^ l % wordB ||| x.getD (i - fs - 1) 0 / 2 ^ (32 - l)

/-- Embedding of `Bigint::operator>>`. -/
def shr (x : List Nat) (s : Nat) : List Nat :=
  let n := x.length
  if 32 * n ≤ s then zeros n
  else
    let fs := s / 32
    let sm := s % 32
    (List.range n).map fun i =>
      if n - fs ≤ i then 0
      else if sm = 0 then x.getD (i + fs) 0
      else if i = n - fs - 1 then x.getD (i + fs) 0 / 2 ^ sm
      else x.getD (i + fs) 0 / 2 ^ sm ||| x.getD (i + fs + 1) 0 * 2 ^ (32 - sm) % wordB

/-- Borrow test and conditional commit shared by one iteration of the
division loop: `r = rem - c`, `d = 1 - (r.storage[ms_part] >> 31)`, and on
`d != 0` the subtraction is committed and the quotient bit added. -/
def divStep (rem quo c e : List Nat) : List Nat × List Nat :=
  let r := sub rem c
  if 1 - r.getD (r.length - 1) 0 / 2 ^ 31 ≠ 0 then (r, add quo e) else (rem, quo)

/-- Shift-and-subtract loop of `Bigint::operator/`: the counter starts at
`bd` and the loop body runs once more after it reaches zero (`bd-- == 0`
breaks after the step), the shifted divisor and quotient weight halving
between iterations. -/
def divLoop : Nat → List Nat → List Nat → List Nat → List Nat → List Nat × List Nat
  | 0, rem, quo, c, e => divStep rem quo c e
  | k + 1, rem, quo, c, e =>
    match divStep rem quo c e with
    | (rem1, quo1) => divLoop k rem1 quo1 (shr c 1) (shr e 1)

/-- Embedding of `Bigint::operator/`.  Note the fast path: when
`*this < x` the source returns `*this` — the dividend, not the zero
quotient (claims C1/C2).  `bd` is an `unsigned int` difference and wraps
modulo `2^32`. -/
def div (x y : List Nat) : List Nat :=
  if lt x y then x
  else
    let bd := (num_bits x + 2 ^ 32 - num_bits y) % 2 ^ 32
    (divLoop bd x (zeros x.length) (shl y bd) (shl (ofULL x.length 1) bd)).2

/-- Iteration of `Bigint::operator%`: same borrow test as division
(`d = r.storage[ms_part] >> 31`, commit on `d == 0`) without quotient
tracking. -/
def modStep (rem c : List Nat) : List Nat :=
  let r := sub rem c
  if r.getD (r.length - 1) 0 / 2 ^ 31 = 0 then r else rem

/-- Loop of `Bigint::operator%`, sharing the alignment logic of the
division loop. -/
def modLoop : Nat → List Nat → List Nat → List Nat
  | 0, rem, c => modStep rem c
  | k + 1, rem, c => modLoop k (modStep rem c) (shr c 1)

/-- Embedding of `Bigint::operator%` (fast path `*this < x` returns the
dividend, which is the correct remainder there). -/
def mod (x y : List Nat) : List Nat :=
  if lt x y then x
  else
    let bd := (num_bits x + 2 ^ 32 - num_bits y) % 2 ^ 32
    modLoop bd x (shl y bd)

/-- Test of `isxdigit` on an ASCII code: decimal digit or hex letter of
either case. -/
def isxdigit (c : Nat) : Bool :=
  (48 ≤ c ∧ c ≤ 57) ∨ (65 ≤ c ∧ c ≤ 70) ∨ (97 ≤ c ∧ c ≤ 102)

/-- Embedding of `string_check`: the input (a list of ASCII codes) consists
of hexadecimal digit characters only. -/
def string_check (s : List Nat) : Bool := s.all isxdigit

/-- Value of one hexadecimal digit character, as `sscanf` converts it
(both letter cases accepted). -/
def hexDigit (c : Nat) : Nat :=
  if c ≤ 57 then c - 48 else if c ≤ 70 then c - 55 else c - 87

/-- Value of a digit sequence read most-significant-first, as one `%NX`
conversion of `sscanf` accumulates it. -/
def hexChunk (cs : List Nat) : Nat := cs.foldl (fun a c => 16 * a + hexDigit c) 0

/-- Storage produced by the hexadecimal constructor
`Bigint<bits>::Bigint(const char *const &x)` after `string_check` passed.
With `number_of_runs = strlen / 8` runs: if more than one run, run `i`
reads the 8 characters ending `8*i` from the end into `storage[i]`, and a
leftover of `strlen % 8` leading characters goes to `storage[runs]`;
otherwise a single `%X` conversion fills `storage[0]` only.  For 9 to 15
digit strings that single `%X` overflows `unsigned int`; ISO C leaves the
overflow undefined and glibc stores the value truncated to 32 bits, which
is the behaviour modelled by the `% wordB` (any semantics of the overflow
writes `storage[0]` only, which is what claim C5 turns on).  `List.set`
drops the out-of-range leftover store that the source performs when
`strlen % 8 != 0` and `runs ≥ bits/32`. -/
def fromHexCore (n : Nat) (s : List Nat) : List Nat :=
  let len := s.length
  let runs := len / 8
  if 1 < runs then
    let base := (List.range runs).foldl
      (fun st i => st.set i (hexChunk ((s.drop (len - 8 * (i + 1))).take 8))) (zeros n)
    if len % 8 ≠ 0 then base.set runs (hexChunk (s.take (len % 8))) else base
  else (zeros n).set 0 (hexChunk s % wordB)

/-- Embedding of the hexadecimal constructor, including the
`std::domain_error` throw on a non-hexadecimal character. -/
def fromHex (n : Nat) (s : List Nat) : Option (List Nat) :=
  if string_check s then some (fromHexCore n s) else none

/-- Lower-case hexadecimal digit character of a value below 16, as
`std::hex` renders it. -/
def toHexChar (d : Nat) : Nat := if d < 10 then 48 + d else 87 + d

/-- Hexadecimal digit characters of a word, most significant first, with
explicit fuel (a 32-bit word needs at most 8). The empty list stands for
the zero word, whose rendering is context dependent below. -/
def hexDigitsF : Nat → Nat → List Nat
  | 0, _ => []
  | fuel + 1, w => if w = 0 then [] else hexDigitsF fuel (w / 16) ++ [toHexChar (w % 16)]

/-- Unpadded hexadecimal rendering of a non-zero word. -/
def hexDigits (w : Nat) : List Nat := hexDigitsF 8 w

/-- Rendering of a word under `std::setw(8)` and `std::setfill(48)`:
zero-padded on the left to 8 characters. -/
def pad8 (l : List Nat) : List Nat := List.replicate (8 - l.length) 48 ++ l

/-- Loop of `operator<<(std::ostream &, const Bigint &)` over the words in
most-significant-first order, carrying the `isnull` flag: leading zero
words are suppressed, the first non-zero word prints unpadded, later words
print zero-padded to 8 digits, and an all-zero value prints one 0. -/
def renderScan : List Nat → Bool → List Nat
  | [], isnull => if isnull then [48] else []
  | w :: ws, true => if w ≠ 0 then hexDigits w ++ renderScan ws false else renderScan ws true
  | w :: ws, false => pad8 (hexDigits w) ++ renderScan ws false

/-- Embedding of `operator<<`: the characters written to the stream. -/
def render (x : List Nat) : List Nat := renderScan x.reverse true

/-- Write loop of `Bigint::rng`: `count` remaining stores of fresh draws of
the random source `σ` (one 32-bit word per draw) starting at word `i`. -/
def rngLoop (σ : Nat → Nat) : List Nat → Nat → Nat → Nat → List Nat
  | ws, _, _, 0 => ws
  | ws, ctr, i, count + 1 => rngLoop σ (ws.set i (σ ctr % wordB)) (ctr + 1) (i + 1) count

/-- Embedding of `Bigint::rng`: with `size_max = 0` the whole storage is
randomized, otherwise `size_max / 32` words are (rounding the bit bound
down to whole words, so that `size_max < 32` randomizes nothing — claim
C4 turns on this).  Returns the new storage and the advanced position in
the random stream. -/
def rng (x : List Nat) (σ : Nat → Nat) (ctr : Nat) (size_max : Nat) : List Nat × Nat :=
  let m := if size_max = 0 then x.length else size_max / 32
  (rngLoop σ x ctr 0 m, ctr + m)

end Bigint

namespace Bigint

theorem wordB_pos : 0 < wordB := by norm_num [wordB]

theorem wordB_pow_pos (k : Nat) : 0 < wordB ^ k := Nat.pos_pow_of_pos k wordB_pos

theorem toVal_nil : toVal [] = 0 := rfl

theorem toVal_cons (w : Nat) (ws : List Nat) : toVal (w :: ws) = w + wordB * toVal ws := rfl

theorem toVal_zeros (n : Nat) : toVal (zeros n) = 0 := by
  induction n with
  | zero => rfl
  | succ n ih =>
    show toVal (0 :: zeros n) = 0
    rw [toVal_cons, ih, Nat.mul_zero, Nat.add_zero]

theorem toVal_lt (ws : List Nat) (h : WordsOk ws) : toVal ws < wordB ^ ws.length := by
  induction ws with
  | nil => simp [toVal_nil]
  | cons w ws ih =>
    have hw : w < wordB := h w (by simp)
    have ht : toVal ws < wordB ^ ws.length := ih (fun v hv => h v (by simp [hv]))
    calc w + wordB * toVal ws < wordB + wordB * toVal ws := by omega
    _ = wordB * (toVal ws + 1) := by ring
    _ ≤ wordB * wordB ^ ws.length := by
        exact Nat.mul_le_mul_left wordB (by omega)
    _ = wordB ^ (w :: ws).length := by rw [List.length_cons, pow_succ]; ring

theorem mod_mul_decomp (x y M : Nat) (hx : x < wordB) (hM : 0 < M) :
    (x + wordB * y) % (wordB * M) = x + wordB * (y % M) := by
  have h1 : wordB * y % (wordB * M) = wordB * (y % M) := Nat.mul_mod_mul_left wordB y M
  have h2 : x + wordB * (y % M) < wordB * M := by
    have : y % M < M := Nat.mod_lt y hM
    have : wordB * (y % M) ≤ wordB * (M - 1) := Nat.mul_le_mul_left wordB (by omega)
    have hwB : 0 < wordB := wordB_pos
    calc x + wordB * (y % M) ≤ x + wordB * (M - 1) := by omega
    _ < wordB + wordB * (M - 1) := by omega
    _ = wordB * M := by cases M with
      | zero => omega
      | succ m => simp [Nat.mul_succ, Nat.succ_sub_one]; ring
  calc (x + wordB * y) % (wordB * M)
      = (x % (wordB * M) + wordB * y % (wordB * M)) % (wordB * M) := by
        rw [Nat.add_mod]
    _ = (x % (wordB * M) + wordB * (y % M)) % (wordB * M) := by rw [h1]
    _ = (x + wordB * (y % M)) % (wordB * M) := by
        rw [Nat.mod_eq_of_lt (lt_of_lt_of_le hx (Nat.le_mul_of_pos_right wordB hM))]
    _ = x + wordB * (y % M) := Nat.mod_eq_of_lt h2

theorem toVal_inj (xs ys : List Nat) (hx : WordsOk xs) (hy : WordsOk ys)
    (hlen : xs.length = ys.length) (h : toVal xs = toVal ys) : xs = ys := by
  induction xs generalizing ys with
  | nil => cases ys with
    | nil => rfl
    | cons y ys => simp at hlen
  | cons x xs ih =>
    cases ys with
    | nil => simp at hlen
    | cons y ys =>
      have hxw : x < wordB := hx x (by simp)
      have hyw : y < wordB := hy y (by simp)
      have hv : toVal (x :: xs) % wordB = toVal (y :: ys) % wordB := by rw [h]
      rw [toVal_cons, toVal_cons, Nat.add_mul_mod_self_left, Nat.add_mul_mod_self_left,
        Nat.mod_eq_of_lt hxw, Nat.mod_eq_of_lt hyw] at hv
      subst hv
      have htail : toVal xs = toVal ys := by
        rw [toVal_cons, toVal_cons] at h
        exact Nat.eq_of_mul_eq_mul_left wordB_pos (Nat.add_left_cancel h)
      rw [ih ys (fun v hv => hx v (by simp [hv])) (fun v hv => hy v (by simp [hv]))
        (by simpa using hlen) htail]

theorem toVal_tail_eq (xs : List Nat) (x : Nat) (h : x < wordB) :
    toVal (x :: xs) / wordB = toVal xs := by
  rw [toVal_cons, Nat.add_mul_div_left x (toVal xs) wordB_pos, Nat.div_eq_of_lt h, Nat.zero_add]

theorem getD_eq_val (ws : List Nat) (h : WordsOk ws) (i : Nat) :
    ws.getD i 0 = toVal ws / wordB ^ i % wordB := by
  induction ws generalizing i with
  | nil => simp [toVal_nil]
  | cons w ws ih =>
    have hw : w < wordB := h w (by simp)
    cases i with
    | zero =>
      simp [toVal_cons, Nat.add_mul_mod_self_left, Nat.mod_eq_of_lt hw]
    | succ i =>
      have : toVal (w :: ws) / wordB ^ (i + 1) = toVal ws / wordB ^ i := by
        rw [pow_succ, mul_comm (wordB ^ i) wordB, ← Nat.div_div_eq_div_mul,
          toVal_tail_eq ws w hw]
      simpa [this] using ih (fun v hv => h v (by simp [hv])) i

/-- Canonical storage of a value `V` (word `i` holds `V / wordB^i % wordB`),
used to state the shift lemmas. -/
def wordsOfVal (n V : Nat) : List Nat := (List.range n).map fun i => V / wordB ^ i % wordB

theorem wordsOfVal_length (n V : Nat) : (wordsOfVal n V).length = n := by
  simp [wordsOfVal]

theorem wordsOfVal_ok (n V : Nat) : WordsOk (wordsOfVal n V) := by
  intro w hw
  simp only [wordsOfVal, List.mem_map] at hw
  obtain ⟨i, _, rfl⟩ := hw
  exact Nat.mod_lt _ wordB_pos

theorem toVal_wordsOfVal (n V : Nat) (h : V < wordB ^ n) : toVal (wordsOfVal n V) = V := by
  induction n generalizing V with
  | zero =>
    have : V = 0 := by simpa using h
    simp [wordsOfVal, toVal_nil, this]
  | succ n ih =>
    have hstep : wordsOfVal (n + 1) V = V % wordB :: wordsOfVal n (V / wordB) := by
      simp only [wordsOfVal, List.range_succ_eq_map, List.map_cons, List.map_map]
      congr 1
      · simp
      · apply List.map_congr_left
        intro i _
        show V / wordB ^ (i + 1) % wordB = V / wordB / wordB ^ i % wordB
        rw [pow_succ, mul_comm (wordB ^ i) wordB, ← Nat.div_div_eq_div_mul]
    rw [hstep, toVal_cons]
    have hdiv : V / wordB < wordB ^ n := by
      rw [Nat.div_lt_iff_lt_mul wordB_pos]
      calc V < wordB ^ (n + 1) := h
      _ = wordB ^ n * wordB := by rw [pow_succ]
    rw [ih (V / wordB) hdiv, Nat.mod_add_div V wordB]

theorem wordsOfVal_getD (n V i : Nat) (h : i < n) :
    (wordsOfVal n V).getD i 0 = V / wordB ^ i % wordB := by
  simp [wordsOfVal, List.getD_eq_getElem?_getD, List.getElem?_map, List.getElem?_range, h]

end Bigint

namespace Bigint

theorem or_eq_add (k a b : Nat) (ha : 2 ^ k ∣ a) (hb : b < 2 ^ k) : a ||| b = a + b := by
  obtain ⟨c, rfl⟩ := ha
  apply Nat.eq_of_testBit_eq
  intro i
  rw [Nat.testBit_lor]
  rcases Nat.lt_or_ge i k with hik | hik
  · have hsplit : 2 ^ k * c = 2 ^ i * (2 ^ (k - i) * c) := by
      rw [← Nat.mul_assoc, ← pow_add]
      congr 2
      omega
    have hdiv : (2 ^ k * c + b) / 2 ^ i = 2 ^ (k - i) * c + b / 2 ^ i := by
      rw [hsplit, Nat.add_comm, Nat.add_mul_div_left _ _ (Nat.pos_pow_of_pos i (by norm_num)),
        Nat.add_comm]
    have heven : 2 ^ (k - i) * c % 2 = 0 := by
      have hki : 2 ^ (k - i) * c = 2 * (2 ^ (k - i - 1) * c) := by
        rw [← Nat.mul_assoc, ← pow_succ']
        congr 2
        omega
      rw [hki]
      exact Nat.mul_mod_right 2 _
    have h1 : (2 ^ k * c + b).testBit i = b.testBit i := by
      rw [Nat.testBit_to_div_mod, Nat.testBit_to_div_mod, hdiv]
      have hxy : (2 ^ (k - i) * c + b / 2 ^ i) % 2 = b / 2 ^ i % 2 := by omega
      rw [hxy]
    have h2 : (2 ^ k * c).testBit i = false := by
      rw [Nat.testBit_to_div_mod]
      have hq : 2 ^ k * c / 2 ^ i = 2 ^ (k - i) * c := by
        rw [hsplit, Nat.mul_div_cancel_left _ (Nat.pos_pow_of_pos i (by norm_num))]
      simp [hq, heven]
    rw [h1, h2, Bool.false_or]
  · have hbz : b / 2 ^ i = 0 :=
      Nat.div_eq_of_lt (lt_of_lt_of_le hb (Nat.pow_le_pow_right (by norm_num) hik))
    have hpow : (2 : Nat) ^ i = 2 ^ k * 2 ^ (i - k) := by
      rw [← pow_add]
      congr 1
      omega
    have h1 : (2 ^ k * c + b).testBit i = (2 ^ k * c).testBit i := by
      rw [Nat.testBit_to_div_mod, Nat.testBit_to_div_mod]
      have hck : (2 ^ k * c + b) / 2 ^ k = c := by
        rw [Nat.add_comm, Nat.add_mul_div_left _ _ (Nat.pos_pow_of_pos k (by norm_num)),
          Nat.div_eq_of_lt hb, Nat.zero_add]
      have e1 : (2 ^ k * c + b) / 2 ^ i = c / 2 ^ (i - k) := by
        rw [hpow, ← Nat.div_div_eq_div_mul, hck]
      have e2 : 2 ^ k * c / 2 ^ i = c / 2 ^ (i - k) := by
        rw [hpow, ← Nat.div_div_eq_div_mul,
          Nat.mul_div_cancel_left _ (Nat.pos_pow_of_pos k (by norm_num))]
      rw [e1, e2]
    have h2 : b.testBit i = false := by
      rw [Nat.testBit_to_div_mod]
      simp [hbz]
    rw [h1, h2, Bool.or_false]

theorem div_mod_drop (P X Y : Nat) (hP : 0 < P) :
    (P * (wordB * X) + Y) / P % wordB = Y / P % wordB := by
  rw [Nat.mul_add_div hP, Nat.add_comm, Nat.add_mul_mod_self_left]

theorem mod_pow_div_mod (T a b : Nat) (h : b + 1 ≤ a) :
    T % wordB ^ a / wordB ^ b % wordB = T / wordB ^ b % wordB := by
  have hfac : wordB ^ a = wordB ^ b * (wordB * wordB ^ (a - b - 1)) := by
    rw [← pow_succ', ← pow_add]
    congr 1
    omega
  have hTR : T = wordB ^ a * (T / wordB ^ a) + T % wordB ^ a := (Nat.div_add_mod T (wordB ^ a)).symm
  conv_rhs => rw [hTR]
  have hrw : wordB ^ a * (T / wordB ^ a) =
      wordB ^ b * (wordB * (wordB ^ (a - b - 1) * (T / wordB ^ a))) := by
    rw [hfac]
    ring
  rw [hrw, div_mod_drop _ _ _ (wordB_pow_pos b)]

/-- Value of a word list read most-significant-first, mirroring the
downward loops of the source; `valBE_reverse` links it to `toVal`. -/
def valBE : List Nat → Nat
  | [] => 0
  | w :: ws => w * wordB ^ ws.length + valBE ws

theorem valBE_append (l1 l2 : List Nat) :
    valBE (l1 ++ l2) = valBE l1 * wordB ^ l2.length + valBE l2 := by
  induction l1 with
  | nil => simp [valBE]
  | cons w ws ih =>
    show valBE (w :: (ws ++ l2)) = _
    rw [valBE, valBE, ih, List.length_append, pow_add]
    ring

theorem valBE_reverse (l : List Nat) : valBE l.reverse = toVal l := by
  induction l with
  | nil => rfl
  | cons w ws ih =>
    rw [List.reverse_cons, valBE_append, ih, toVal_cons]
    simp [valBE]
    ring

theorem valBE_lt (ws : List Nat) (h : WordsOk ws) : valBE ws < wordB ^ ws.length := by
  have := toVal_lt ws.reverse (by
    intro w hw
    exact h w (by simpa using hw))
  rw [← valBE_reverse ws.reverse, List.reverse_reverse] at this
  simpa using this

theorem bitLenF_zero (fuel : Nat) : bitLenF fuel 0 = 0 := by
  cases fuel <;> simp [bitLenF]

theorem bitLenF_lt (fuel w : Nat) (h : w < 2 ^ fuel) : w < 2 ^ bitLenF fuel w := by
  induction fuel generalizing w with
  | zero => simpa [bitLenF] using h
  | succ fuel ih =>
    by_cases hw : w = 0
    · simp [bitLenF, hw]
    · have hdiv : w / 2 < 2 ^ fuel := by
        rw [Nat.div_lt_iff_lt_mul (by norm_num)]
        calc w < 2 ^ (fuel + 1) := h
        _ = 2 ^ fuel * 2 := by rw [pow_succ]
      have := ih (w / 2) hdiv
      rw [bitLenF, if_neg hw, pow_succ]
      omega

theorem bitLenF_pos (fuel w : Nat) (hw : w ≠ 0) (hf : 1 ≤ fuel) : 1 ≤ bitLenF fuel w := by
  cases fuel with
  | zero => omega
  | succ fuel => rw [bitLenF, if_neg hw]; omega

theorem bitLenF_le (fuel w : Nat) (h : w < 2 ^ fuel) :
    bitLenF fuel w ≤ fuel ∧ (w ≠ 0 → 2 ^ (bitLenF fuel w - 1) ≤ w) := by
  induction fuel generalizing w with
  | zero =>
    have : w = 0 := by simpa using h
    subst this
    exact ⟨by simp [bitLenF], fun hc => absurd rfl hc⟩
  | succ fuel ih =>
    by_cases hw : w = 0
    · subst hw
      exact ⟨by simp [bitLenF_zero], fun hc => absurd rfl hc⟩
    · rw [bitLenF, if_neg hw]
      have hdiv : w / 2 < 2 ^ fuel := by
        rw [Nat.div_lt_iff_lt_mul (by norm_num)]
        calc w < 2 ^ (fuel + 1) := h
        _ = 2 ^ fuel * 2 := by rw [pow_succ]
      obtain ⟨h1, h2⟩ := ih (w / 2) hdiv
      refine ⟨by omega, fun _ => ?_⟩
      by_cases hw2 : w / 2 = 0
      · simp [hw2, bitLenF_zero]
        omega
      · have hlow := h2 hw2
        have hfpos : 1 ≤ fuel := by
          by_contra hc
          push_neg at hc
          have : fuel = 0 := by omega
          subst this
          simp at hdiv
          omega
        have hpos : 1 ≤ bitLenF fuel (w / 2) := bitLenF_pos fuel (w / 2) hw2 hfpos
        have hstep : 2 ^ (bitLenF fuel (w / 2) + 1 - 1) = 2 * 2 ^ (bitLenF fuel (w / 2) - 1) := by
          rw [← pow_succ']
          congr 1
          omega
        rw [hstep]
        omega

theorem bitLen_bounds (w : Nat) (hw : w < wordB) :
    w < 2 ^ bitLen w ∧ bitLen w ≤ 32 ∧ (w ≠ 0 → 2 ^ (bitLen w - 1) ≤ w) := by
  have hw32 : w < 2 ^ 32 := hw
  have h1 := bitLenF_lt 32 w hw32
  have h2 := bitLenF_le 32 w hw32
  exact ⟨h1, h2.1, h2.2⟩

theorem bitLen_mono (v w : Nat) (h : v ≤ w) : bitLen v ≤ bitLen w := by
  have key : ∀ fuel v w, v ≤ w → bitLenF fuel v ≤ bitLenF fuel w := by
    intro fuel
    induction fuel with
    | zero => simp [bitLenF]
    | succ fuel ih =>
      intro v w hvw
      by_cases hv : v = 0
      · simp [hv, bitLenF_zero]
      · have hw : w ≠ 0 := by omega
        rw [bitLenF, if_neg hv, bitLenF, if_neg hw]
        have := ih (v / 2) (w / 2) (Nat.div_le_div_right hvw)
        omega
  exact key 32 v w h

theorem bitLen_pos (w : Nat) (h : w ≠ 0) : 1 ≤ bitLen w := bitLenF_pos 32 w h (by omega)

end Bigint

namespace Bigint

theorem addWords_length (as_ bs : List Nat) (c : Nat) (h : as_.length = bs.length) :
    (addWords as_ bs c).length = as_.length := by
  induction as_ generalizing bs c with
  | nil => cases bs <;> simp [addWords]
  | cons a as_ ih =>
    cases bs with
    | nil => simp at h
    | cons b bs => simpa [addWords] using ih bs _ (by simpa using h)

theorem addWords_ok (as_ bs : List Nat) (c : Nat) : WordsOk (addWords as_ bs c) := by
  induction as_ generalizing bs c with
  | nil => cases bs <;> simp [addWords, WordsOk]
  | cons a as_ ih =>
    cases bs with
    | nil => simp [addWords, WordsOk]
    | cons b bs =>
      intro w hw
      rcases (by simpa [addWords] using hw : w = (a + b + c) % wordB ∨ w ∈ addWords as_ bs _) with
        h | h
      · subst h
        exact Nat.mod_lt _ wordB_pos
      · exact ih bs _ w h

theorem addWords_val (as_ bs : List Nat) (c : Nat) (h : as_.length = bs.length) :
    toVal (addWords as_ bs c) = (toVal as_ + toVal bs + c) % wordB ^ as_.length := by
  induction as_ generalizing bs c with
  | nil =>
    cases bs with
    | nil => simp [addWords, toVal_nil, Nat.mod_one]
    | cons b bs => simp at h
  | cons a as_ ih =>
    cases bs with
    | nil => simp at h
    | cons b bs =>
      have hlen : as_.length = bs.length := by simpa using h
      show toVal ((a + b + c) % wordB :: addWords as_ bs ((a + b + c) / wordB)) = _
      have key : toVal (a :: as_) + toVal (b :: bs) + c =
          (a + b + c) % wordB + wordB * (toVal as_ + toVal bs + (a + b + c) / wordB) := by
        rw [toVal_cons, toVal_cons]
        have hd : wordB * (toVal as_ + toVal bs + (a + b + c) / wordB) =
            wordB * toVal as_ + wordB * toVal bs + wordB * ((a + b + c) / wordB) := by ring
        rw [hd]
        have hdm : wordB * ((a + b + c) / wordB) + (a + b + c) % wordB = a + b + c :=
          Nat.div_add_mod (a + b + c) wordB
        omega
      rw [toVal_cons, ih bs _ hlen, List.length_cons, pow_succ', key,
        mod_mul_decomp _ _ _ (Nat.mod_lt _ wordB_pos) (wordB_pow_pos _)]

theorem add_length (x y : List Nat) (h : x.length = y.length) : (add x y).length = x.length :=
  addWords_length x y 0 h

theorem add_ok (x y : List Nat) : WordsOk (add x y) := addWords_ok x y 0

theorem add_val (x y : List Nat) (h : x.length = y.length) :
    toVal (add x y) = (toVal x + toVal y) % wordB ^ x.length := by
  simpa using addWords_val x y 0 h

theorem subWords_length (as_ bs : List Nat) (c : Nat) (h : as_.length = bs.length) :
    (subWords as_ bs c).length = as_.length := by
  induction as_ generalizing bs c with
  | nil => cases bs <;> simp [subWords]
  | cons a as_ ih =>
    cases bs with
    | nil => simp at h
    | cons b bs => simpa [subWords] using ih bs _ (by simpa using h)

theorem subWords_ok (as_ bs : List Nat) (c : Nat) : WordsOk (subWords as_ bs c) := by
  induction as_ generalizing bs c with
  | nil => cases bs <;> simp [subWords, WordsOk]
  | cons a as_ ih =>
    cases bs with
    | nil => simp [subWords, WordsOk]
    | cons b bs =>
      intro w hw
      rcases (by simpa [subWords] using hw :
          w = (a + 2 ^ 64 - (b + c)) % 2 ^ 64 % wordB ∨ w ∈ subWords as_ bs _) with h | h
      · subst h
        exact Nat.mod_lt _ wordB_pos
      · exact ih bs _ w h

theorem subWords_val (as_ bs : List Nat) (brw : Nat) (h : as_.length = bs.length)
    (ha : WordsOk as_) (hb : WordsOk bs) (hbrw : brw ≤ 1) :
    toVal (subWords as_ bs brw) =
      (toVal as_ + wordB ^ as_.length - (toVal bs + brw)) % wordB ^ as_.length := by
  induction as_ generalizing bs brw with
  | nil =>
    cases bs with
    | nil =>
      simp [subWords, toVal_nil]
      omega
    | cons b bs => simp at h
  | cons a as_ ih =>
    cases bs with
    | nil => simp at h
    | cons b bs =>
      have hlen : as_.length = bs.length := by simpa using h
      have haw : a < wordB := ha a (by simp)
      have hbw : b < wordB := hb b (by simp)
      have hat : WordsOk as_ := fun v hv => ha v (by simp [hv])
      have hbt : WordsOk bs := fun v hv => hb v (by simp [hv])
      have hBlt : toVal bs < wordB ^ as_.length := by
        rw [hlen]
        exact toVal_lt bs hbt
      have hwB : wordB = 4294967296 := by norm_num [wordB]
      rw [hwB] at haw hbw
      have hP := wordB_pow_pos as_.length
      have hmul : wordB * (toVal bs + 1) ≤ wordB * wordB ^ as_.length :=
        Nat.mul_le_mul_left wordB (by omega)
      rw [Nat.mul_add] at hmul
      set temp := (a + 2 ^ 64 - (b + brw)) % 2 ^ 64 with htemp
      show toVal (temp % wordB :: subWords as_ bs (temp / 2 ^ 63)) = _
      rcases le_or_lt (b + brw) a with hge | hlt
      · have ht : temp = a - (b + brw) := by rw [htemp]; omega
        have hw0 : temp % wordB = a - (b + brw) := by rw [ht, hwB]; omega
        have hb0 : temp / 2 ^ 63 = 0 := by rw [ht]; omega
        have hre : toVal (a :: as_) + wordB * wordB ^ as_.length - (toVal (b :: bs) + brw) =
            a - (b + brw) + wordB * (toVal as_ + wordB ^ as_.length - (toVal bs + 0)) := by
          rw [toVal_cons, toVal_cons]
          have h1 : toVal bs + 0 ≤ toVal as_ + wordB ^ as_.length := by omega
          have h2 : b + wordB * toVal bs + brw ≤
              a + wordB * toVal as_ + wordB * wordB ^ as_.length := by
            rw [hwB] at *
            omega
          zify [hge, h1, h2]
          ring
        rw [toVal_cons, hw0, hb0, ih bs 0 hlen hat hbt (by omega), List.length_cons, pow_succ',
          hre, mod_mul_decomp _ _ _ (by rw [hwB]; omega) (wordB_pow_pos _)]
      · have ht : temp = 2 ^ 64 - (b + brw - a) := by rw [htemp]; omega
        have hw0 : temp % wordB = wordB - (b + brw - a) := by rw [ht, hwB]; omega
        have hb0 : temp / 2 ^ 63 = 1 := by rw [ht]; omega
        have hre : toVal (a :: as_) + wordB * wordB ^ as_.length - (toVal (b :: bs) + brw) =
            wordB - (b + brw - a) + wordB * (toVal as_ + wordB ^ as_.length - (toVal bs + 1)) := by
          rw [toVal_cons, toVal_cons]
          have h1 : toVal bs + 1 ≤ toVal as_ + wordB ^ as_.length := by omega
          have h2 : b + wordB * toVal bs + brw ≤
              a + wordB * toVal as_ + wordB * wordB ^ as_.length := by
            rw [hwB] at *
            omega
          zify [hlt.le, h1, h2, show b + brw - a ≤ wordB by rw [hwB]; omega]
          ring
        rw [toVal_cons, hw0, hb0, ih bs 1 hlen hat hbt (by omega), List.length_cons, pow_succ',
          hre, mod_mul_decomp _ _ _ (by rw [hwB]; omega) (wordB_pow_pos _)]

theorem sub_length (x y : List Nat) (h : x.length = y.length) : (sub x y).length = x.length :=
  subWords_length x y 0 h

theorem sub_ok (x y : List Nat) : WordsOk (sub x y) := subWords_ok x y 0

theorem sub_val (x y : List Nat) (h : x.length = y.length) (hx : WordsOk x) (hy : WordsOk y) :
    toVal (sub x y) = (toVal x + wordB ^ x.length - toVal y) % wordB ^ x.length := by
  simpa using subWords_val x y 0 h hx hy (by omega)

end Bigint

namespace Bigint

theorem mulRow_length (xi : Nat) (ys res : List Nat) (c : Nat) :
    (mulRow xi ys res c).length = res.length := by
  induction ys generalizing res c with
  | nil => cases res <;> simp [mulRow]
  | cons y ys ih =>
    cases res with
    | nil => simp [mulRow]
    | cons r rs => simpa [mulRow] using ih rs _

theorem mulRow_ok (xi : Nat) (ys res : List Nat) (c : Nat) (h : WordsOk res) :
    WordsOk (mulRow xi ys res c) := by
  induction ys generalizing res c with
  | nil => cases res <;> simpa [mulRow] using h
  | cons y ys ih =>
    cases res with
    | nil => simpa [mulRow] using h
    | cons r rs =>
      intro w hw
      rcases (by simpa [mulRow] using hw :
          w = (r + xi * y + c) % wordB ∨ w ∈ mulRow xi ys rs _) with h1 | h1
      · subst h1
        exact Nat.mod_lt _ wordB_pos
      · exact ih rs _ (fun v hv => h v (by simp [hv])) w h1

theorem mulRow_val (xi : Nat) (ys res : List Nat) (c : Nat) (h : res.length ≤ ys.length) :
    toVal (mulRow xi ys res c) = (toVal res + xi * toVal ys + c) % wordB ^ res.length := by
  induction ys generalizing res c with
  | nil =>
    have : res = [] := List.length_eq_zero.mp (Nat.le_zero.mp (by simpa using h))
    subst this
    simp [mulRow, toVal_nil, Nat.mod_one]
  | cons y ys ih =>
    cases res with
    | nil => simp [mulRow, toVal_nil, Nat.mod_one]
    | cons r rs =>
      have hlen : rs.length ≤ ys.length := by simpa using h
      show toVal ((r + xi * y + c) % wordB :: mulRow xi ys rs ((r + xi * y + c) / wordB)) = _
      have key : toVal (r :: rs) + xi * toVal (y :: ys) + c =
          (r + xi * y + c) % wordB + wordB * (toVal rs + xi * toVal ys + (r + xi * y + c) / wordB) := by
        rw [toVal_cons, toVal_cons]
        have hd : wordB * (toVal rs + xi * toVal ys + (r + xi * y + c) / wordB) =
            wordB * toVal rs + xi * (wordB * toVal ys) + wordB * ((r + xi * y + c) / wordB) := by
          ring
        have hdm : wordB * ((r + xi * y + c) / wordB) + (r + xi * y + c) % wordB =
            r + xi * y + c := Nat.div_add_mod _ wordB
        have hexp : xi * (y + wordB * toVal ys) = xi * y + xi * (wordB * toVal ys) := by ring
        rw [hd, hexp]
        omega
      rw [toVal_cons, ih rs _ hlen, List.length_cons, pow_succ', key,
        mod_mul_decomp _ _ _ (Nat.mod_lt _ wordB_pos) (wordB_pow_pos _)]

theorem mulLoop_length (xs ys res : List Nat) : (mulLoop xs ys res).length = res.length := by
  induction xs generalizing res with
  | nil => simp [mulLoop]
  | cons xi xs ih =>
    show (match mulRow xi ys res 0 with
      | [] => []
      | r :: rs => r :: mulLoop xs ys rs).length = res.length
    have hl := mulRow_length xi ys res 0
    rcases hrow : mulRow xi ys res 0 with _ | ⟨rh, rt⟩
    · rw [hrow] at hl
      exact hl
    · rw [hrow] at hl
      simp only [List.length_cons] at hl ⊢
      rw [ih rt]
      omega

theorem mulLoop_ok (xs ys res : List Nat) (h : WordsOk res) : WordsOk (mulLoop xs ys res) := by
  induction xs generalizing res with
  | nil => simpa [mulLoop] using h
  | cons xi xs ih =>
    show WordsOk (match mulRow xi ys res 0 with
      | [] => []
      | r :: rs => r :: mulLoop xs ys rs)
    have hok := mulRow_ok xi ys res 0 h
    rcases hrow : mulRow xi ys res 0 with _ | ⟨rh, rt⟩
    · intro w hw
      simp at hw
    · rw [hrow] at hok
      intro w hw
      rcases (by simpa using hw : w = rh ∨ w ∈ mulLoop xs ys rt) with h1 | h1
      · subst h1
        exact hok w (by simp)
      · exact ih rt (fun v hv => hok v (by simp [hv])) w h1

theorem mulLoop_val (xs ys res : List Nat) (hres : WordsOk res) (h : res.length ≤ ys.length) :
    toVal (mulLoop xs ys res) = (toVal res + toVal xs * toVal ys) % wordB ^ res.length := by
  induction xs generalizing res with
  | nil =>
    rw [mulLoop, toVal_nil, Nat.zero_mul, Nat.add_zero, Nat.mod_eq_of_lt (toVal_lt res hres)]
  | cons xi xs ih =>
    show toVal (match mulRow xi ys res 0 with
      | [] => []
      | r :: rs => r :: mulLoop xs ys rs) = _
    have hrv := mulRow_val xi ys res 0 h
    have hrl := mulRow_length xi ys res 0
    have hrok := mulRow_ok xi ys res 0 hres
    rcases hrow : mulRow xi ys res 0 with _ | ⟨rh, rt⟩
    · rw [hrow] at hrl
      have : res = [] := List.length_eq_zero.mp (by simpa using hrl.symm)
      subst this
      simp [toVal_nil, Nat.mod_one]
    · rw [hrow] at hrv hrl hrok
      have hrsl : rt.length ≤ ys.length := by
        simp only [List.length_cons] at hrl
        omega
      have hrsok : WordsOk rt := fun v hv => hrok v (by simp [hv])
      have hrw : rh < wordB := hrok rh (by simp)
      have hlen : res.length = rt.length + 1 := by
        simp only [List.length_cons] at hrl
        omega
      rw [toVal_cons, ih rt hrsok hrsl,
        ← mod_mul_decomp rh (toVal rt + toVal xs * toVal ys) _ hrw (wordB_pow_pos _)]
      have hM : wordB * wordB ^ rt.length = wordB ^ res.length := by
        rw [hlen, pow_succ']
      rw [hM]
      have e1 : rh + wordB * (toVal rt + toVal xs * toVal ys) =
          toVal (rh :: rt) + wordB * (toVal xs * toVal ys) := by
        rw [toVal_cons]
        ring
      rw [e1]
      have hrv2 : toVal (rh :: rt) = (toVal res + xi * toVal ys) % wordB ^ res.length := by
        simpa using hrv
      rw [hrv2, Nat.mod_add_mod]
      congr 1
      rw [toVal_cons]
      ring

theorem mul_length (x y : List Nat) : (mul x y).length = x.length := by
  rw [mul, mulLoop_length]
  simp [zeros]

theorem mul_ok (x y : List Nat) : WordsOk (mul x y) :=
  mulLoop_ok x y (zeros x.length) (by intro w hw; simp [zeros] at hw; simp [hw, wordB_pos])

theorem mul_val (x y : List Nat) (h : x.length = y.length) :
    toVal (mul x y) = toVal x * toVal y % wordB ^ x.length := by
  rw [mul, mulLoop_val x y (zeros x.length)
    (by intro w hw; simp [zeros] at hw; simp [hw, wordB_pos])
    (by simp [zeros, h]), toVal_zeros]
  simp [zeros]

end Bigint

namespace Bigint

theorem two_pow_lt_wordB (l : Nat) (h : l < 32) : 2 ^ l < wordB := by
  have : (2 : Nat) ^ l < 2 ^ 32 := Nat.pow_lt_pow_right (by norm_num) h
  simpa [wordB] using this

theorem wordB_split (l : Nat) (h : l ≤ 32) : wordB = 2 ^ (32 - l) * 2 ^ l := by
  rw [← pow_add, Nat.sub_add_cancel h]
  rfl

theorem mul_pow_mod_wordB (q l : Nat) (h : l ≤ 32) :
    q * 2 ^ l % wordB = q % 2 ^ (32 - l) * 2 ^ l := by
  rw [wordB_split l h, Nat.mul_mod_mul_right]

theorem mod_mul_pow_mod (X l : Nat) (hl : l < 32) :
    X % wordB * 2 ^ l % wordB = X * 2 ^ l % wordB := by
  conv_rhs => rw [Nat.mul_mod X (2 ^ l) wordB, Nat.mod_eq_of_lt (two_pow_lt_wordB l hl)]

end Bigint

namespace Bigint

theorem shl_word_core (X j l : Nat) (hj : 1 ≤ j) (hl0 : l ≠ 0) (hl : l < 32) :
    X / wordB ^ j % wordB * 2 ^ l % wordB ||| X / wordB ^ (j - 1) % wordB / 2 ^ (32 - l) =
      X * 2 ^ l / wordB ^ j % wordB := by
  set U := X / wordB ^ (j - 1) with hU
  set L := X % wordB ^ (j - 1) with hL
  have hXj : X / wordB ^ j = U / wordB := by
    rw [hU, Nat.div_div_eq_div_mul, ← pow_succ]
    congr 2
    omega
  have hXdec : X = wordB ^ (j - 1) * U + L := by
    rw [hU, hL, Nat.div_add_mod]
  have hLlt : L < wordB ^ (j - 1) := Nat.mod_lt X (wordB_pow_pos _)
  set r := L * 2 ^ l / wordB ^ (j - 1) with hr
  have hrlt : r < 2 ^ l := by
    rw [hr, Nat.div_lt_iff_lt_mul (wordB_pow_pos _)]
    calc L * 2 ^ l < wordB ^ (j - 1) * 2 ^ l :=
          (Nat.mul_lt_mul_right (Nat.pos_pow_of_pos l (by norm_num))).mpr hLlt
    _ = 2 ^ l * wordB ^ (j - 1) := by ring
  have step1 : X * 2 ^ l / wordB ^ (j - 1) = U * 2 ^ l + r := by
    conv_lhs => rw [hXdec]
    rw [Nat.add_mul, Nat.mul_assoc, Nat.mul_add_div (wordB_pow_pos _), hr]
  have step2 : X * 2 ^ l / wordB ^ j = (U * 2 ^ l + r) / wordB := by
    have hpj : wordB ^ j = wordB ^ (j - 1) * wordB := by
      rw [← pow_succ]
      congr 1
      omega
    rw [hpj, ← Nat.div_div_eq_div_mul, step1]
  set x0 := U % wordB with hx0
  have hx0lt : x0 < wordB := Nat.mod_lt _ wordB_pos
  have step3 : (U * 2 ^ l + r) / wordB = U / wordB * 2 ^ l + (x0 * 2 ^ l + r) / wordB := by
    conv_lhs => rw [show U = wordB * (U / wordB) + x0 from by rw [hx0, Nat.div_add_mod]]
    rw [Nat.add_mul, Nat.mul_assoc, Nat.add_assoc, Nat.mul_add_div wordB_pos]
  have step4 : (x0 * 2 ^ l + r) / wordB = x0 / 2 ^ (32 - l) := by
    rw [wordB_split l (by omega), Nat.mul_comm (2 ^ (32 - l)) (2 ^ l),
      ← Nat.div_div_eq_div_mul]
    have : (x0 * 2 ^ l + r) / 2 ^ l = x0 := by
      rw [Nat.mul_comm x0 (2 ^ l), Nat.mul_add_div (Nat.pos_pow_of_pos l (by norm_num)),
        Nat.div_eq_of_lt hrlt, Nat.add_zero]
    rw [this]
  have hx0div : x0 / 2 ^ (32 - l) < 2 ^ l := by
    rw [Nat.div_lt_iff_lt_mul (Nat.pos_pow_of_pos _ (by norm_num))]
    calc x0 < wordB := hx0lt
    _ = 2 ^ l * 2 ^ (32 - l) := by rw [Nat.mul_comm]; exact wordB_split l (by omega)
  have step5 : (U / wordB * 2 ^ l + x0 / 2 ^ (32 - l)) % wordB =
      U / wordB * 2 ^ l % wordB + x0 / 2 ^ (32 - l) := by
    have hbound : U / wordB * 2 ^ l % wordB ≤ wordB - 2 ^ l := by
      rw [mul_pow_mod_wordB _ l (by omega)]
      have h1 : U / wordB % 2 ^ (32 - l) ≤ 2 ^ (32 - l) - 1 := by
        have := Nat.mod_lt (U / wordB) (Nat.pos_pow_of_pos (32 - l) (show 0 < 2 by norm_num))
        omega
      calc U / wordB % 2 ^ (32 - l) * 2 ^ l ≤ (2 ^ (32 - l) - 1) * 2 ^ l :=
            Nat.mul_le_mul_right _ h1
      _ = 2 ^ (32 - l) * 2 ^ l - 2 ^ l := by
            rw [Nat.sub_mul, Nat.one_mul]
      _ = wordB - 2 ^ l := by rw [← wordB_split l (by omega)]
    have h2l : 0 < 2 ^ l := Nat.pos_pow_of_pos l (by norm_num)
    have h2lw : 2 ^ l ≤ wordB := le_of_lt (two_pow_lt_wordB l hl)
    rw [Nat.add_mod, Nat.mod_eq_of_lt (show x0 / 2 ^ (32 - l) < wordB from
      lt_of_lt_of_le hx0div h2lw)]
    exact Nat.mod_eq_of_lt (by omega)
  have step6 : X / wordB ^ j % wordB * 2 ^ l % wordB = U / wordB * 2 ^ l % wordB := by
    rw [hXj, mod_mul_pow_mod _ l hl]
  rw [step6, step2, step3, step4, step5]
  apply or_eq_add l
  · rw [mul_pow_mod_wordB _ l (by omega)]
    exact dvd_mul_left _ _
  · exact hx0div

end Bigint


namespace Bigint

theorem wordsOfVal_zero (n : Nat) : wordsOfVal n 0 = zeros n :=
  toVal_inj _ _ (wordsOfVal_ok n 0)
    (by intro w hw; simp [zeros] at hw; simpa [hw] using wordB_pos)
    (by rw [wordsOfVal_length]; simp [zeros])
    (by rw [toVal_wordsOfVal n 0 (wordB_pow_pos n), toVal_zeros])

theorem shl_eq (x : List Nat) (s : Nat) (hx : WordsOk x) :
    shl x s = wordsOfVal x.length (toVal x * 2 ^ s % wordB ^ x.length) := by
  by_cases hs : 32 * x.length ≤ s
  · have hzero : shl x s = zeros x.length := by
      show (if 32 * x.length ≤ s then zeros x.length else _) = zeros x.length
      rw [if_pos hs]
    obtain ⟨c, hc⟩ : wordB ^ x.length ∣ toVal x * 2 ^ s := by
      have h1 : wordB ^ x.length ∣ 2 ^ s := by
        have h2 : wordB ^ x.length = 2 ^ (32 * x.length) := by rw [wordB, ← pow_mul]
        rw [h2]
        exact pow_dvd_pow 2 hs
      exact h1.mul_left (toVal x)
    rw [hzero, hc, Nat.mul_mod_right, wordsOfVal_zero]
  · push_neg at hs
    have hmap : shl x s = (List.range x.length).map (fun i =>
        if i < s / 32 then 0
        else if i = s / 32 then x.getD 0 0 * 2 ^ (s % 32) % wordB
        else if s % 32 = 0 then x.getD (i - s / 32) 0
        else x.getD (i - s / 32) 0 * 2 ^ (s % 32) % wordB |||
          x.getD (i - s / 32 - 1) 0 / 2 ^ (32 - s % 32)) := by
      show (if 32 * x.length ≤ s then zeros x.length else _) = _
      rw [if_neg (by omega)]
    rw [hmap, wordsOfVal]
    apply List.map_congr_left
    intro i hi
    have hin : i < x.length := List.mem_range.mp hi
    have hfs : s / 32 < x.length := by
      rw [Nat.div_lt_iff_lt_mul (by norm_num)]
      omega
    have hl32 : s % 32 < 32 := Nat.mod_lt s (by norm_num)
    have hdm : 32 * (s / 32) + s % 32 = s := Nat.div_add_mod s 32
    have hVfac : toVal x * 2 ^ s % wordB ^ x.length =
        wordB ^ (s / 32) * (toVal x * 2 ^ (s % 32) % wordB ^ (x.length - s / 32)) := by
      have hps : (2 : Nat) ^ s = wordB ^ (s / 32) * 2 ^ (s % 32) := by
        rw [wordB, ← pow_mul, ← pow_add]
        congr 1
        omega
      have hpn : wordB ^ x.length = wordB ^ (s / 32) * wordB ^ (x.length - s / 32) := by
        rw [← pow_add]
        congr 1
        omega
      have hfact : toVal x * 2 ^ s = wordB ^ (s / 32) * (toVal x * 2 ^ (s % 32)) := by
        rw [hps]
        ring
      rw [hfact, hpn, Nat.mul_mod_mul_left]
    rcases Nat.lt_trichotomy i (s / 32) with hlt | heq | hgt
    · rw [if_pos hlt, hVfac]
      have hpw : wordB ^ (s / 32) = wordB ^ i * (wordB * wordB ^ (s / 32 - i - 1)) := by
        rw [← pow_succ', ← pow_add]
        congr 1
        omega
      rw [hpw, Nat.mul_assoc, Nat.mul_div_cancel_left _ (wordB_pow_pos i), Nat.mul_assoc,
        Nat.mul_mod_right]
    · rw [if_neg (by omega), if_pos heq, heq, hVfac,
        Nat.mul_div_cancel_left _ (wordB_pow_pos _),
        Nat.mod_mod_of_dvd _ (dvd_pow_self wordB (by omega : x.length - s / 32 ≠ 0)),
        getD_eq_val x hx 0, pow_zero, Nat.div_one, mod_mul_pow_mod _ _ hl32]
    · have hred : toVal x * 2 ^ s % wordB ^ x.length / wordB ^ i % wordB =
          toVal x * 2 ^ (s % 32) / wordB ^ (i - s / 32) % wordB := by
        rw [hVfac]
        have hpi : wordB ^ i = wordB ^ (s / 32) * wordB ^ (i - s / 32) := by
          rw [← pow_add]
          congr 1
          omega
        rw [hpi, Nat.mul_div_mul_left _ _ (wordB_pow_pos _),
          mod_pow_div_mod _ _ _ (by omega)]
      rw [if_neg (by omega), if_neg (by omega), hred]
      by_cases hl0 : s % 32 = 0
      · rw [if_pos hl0, hl0, pow_zero, Nat.mul_one, getD_eq_val x hx]
      · rw [if_neg hl0, getD_eq_val x hx, getD_eq_val x hx]
        exact shl_word_core (toVal x) (i - s / 32) (s % 32) (by omega) hl0 hl32

theorem shl_length (x : List Nat) (s : Nat) : (shl x s).length = x.length := by
  show (if 32 * x.length ≤ s then zeros x.length else _).length = x.length
  split
  · simp [zeros]
  · simp

theorem shl_ok (x : List Nat) (s : Nat) (hx : WordsOk x) : WordsOk (shl x s) := by
  rw [shl_eq x s hx]
  exact wordsOfVal_ok _ _

theorem shl_val (x : List Nat) (s : Nat) (hx : WordsOk x) :
    toVal (shl x s) = toVal x * 2 ^ s % wordB ^ x.length := by
  rw [shl_eq x s hx]
  exact toVal_wordsOfVal _ _ (Nat.mod_lt _ (wordB_pow_pos _))

end Bigint

namespace Bigint

theorem shr_word_core (X u sm : Nat) (hsm0 : sm ≠ 0) (hsm : sm < 32) :
    X / wordB ^ u % wordB / 2 ^ sm ||| X / wordB ^ (u + 1) % wordB * 2 ^ (32 - sm) % wordB =
      X / wordB ^ u / 2 ^ sm % wordB := by
  set U := X / wordB ^ u with hU
  have hx1 : X / wordB ^ (u + 1) = U / wordB := by
    rw [hU, Nat.div_div_eq_div_mul, ← pow_succ]
  set x0 := U % wordB with hx0
  have hx0lt : x0 < wordB := Nat.mod_lt _ wordB_pos
  have hsm32 : sm ≤ 32 := by omega
  have hx0div : x0 / 2 ^ sm < 2 ^ (32 - sm) := by
    rw [Nat.div_lt_iff_lt_mul (Nat.pos_pow_of_pos _ (by norm_num))]
    calc x0 < wordB := hx0lt
    _ = 2 ^ (32 - sm) * 2 ^ sm := wordB_split sm hsm32
  have stepA : U / 2 ^ sm = 2 ^ (32 - sm) * (U / wordB) + x0 / 2 ^ sm := by
    conv_lhs => rw [show U = wordB * (U / wordB) + x0 from by rw [hx0, Nat.div_add_mod]]
    rw [show wordB * (U / wordB) = 2 ^ sm * (2 ^ (32 - sm) * (U / wordB)) from by
      rw [← Nat.mul_assoc, Nat.mul_comm (2 ^ sm) (2 ^ (32 - sm)), ← wordB_split sm hsm32]]
    rw [Nat.mul_add_div (Nat.pos_pow_of_pos sm (by norm_num))]
  have hmulmod : ∀ q : Nat, q * 2 ^ (32 - sm) % wordB = q % 2 ^ sm * 2 ^ (32 - sm) := by
    intro q
    rw [mul_pow_mod_wordB q (32 - sm) (by omega),
      show 32 - (32 - sm) = sm from by omega]
  have stepB : (2 ^ (32 - sm) * (U / wordB) + x0 / 2 ^ sm) % wordB =
      U / wordB * 2 ^ (32 - sm) % wordB + x0 / 2 ^ sm := by
    have hb1 : U / wordB * 2 ^ (32 - sm) % wordB ≤ wordB - 2 ^ (32 - sm) := by
      rw [hmulmod]
      have h1 : U / wordB % 2 ^ sm ≤ 2 ^ sm - 1 := by
        have := Nat.mod_lt (U / wordB) (Nat.pos_pow_of_pos sm (show 0 < 2 by norm_num))
        omega
      calc U / wordB % 2 ^ sm * 2 ^ (32 - sm) ≤ (2 ^ sm - 1) * 2 ^ (32 - sm) :=
            Nat.mul_le_mul_right _ h1
      _ = 2 ^ sm * 2 ^ (32 - sm) - 2 ^ (32 - sm) := by rw [Nat.sub_mul, Nat.one_mul]
      _ = wordB - 2 ^ (32 - sm) := by
            congr 1
            rw [Nat.mul_comm]
            exact (wordB_split sm hsm32).symm
    have h2lw : 2 ^ (32 - sm) ≤ wordB := by
      calc (2 : Nat) ^ (32 - sm) ≤ 2 ^ 32 := Nat.pow_le_pow_right (by norm_num) (by omega)
      _ = wordB := rfl
    rw [Nat.mul_comm (2 ^ (32 - sm)) (U / wordB), Nat.add_mod,
      Nat.mod_eq_of_lt (lt_of_lt_of_le hx0div h2lw)]
    exact Nat.mod_eq_of_lt (by omega)
  have stepC : X / wordB ^ (u + 1) % wordB * 2 ^ (32 - sm) % wordB =
      U / wordB * 2 ^ (32 - sm) % wordB := by
    rw [hx1, mod_mul_pow_mod _ _ (by omega)]
  rw [stepC, stepA, stepB, Nat.lor_comm]
  rw [or_eq_add (32 - sm) _ _ (by rw [hmulmod]; exact dvd_mul_left _ _) hx0div]

theorem shr_eq (x : List Nat) (s : Nat) (hx : WordsOk x) :
    shr x s = wordsOfVal x.length (toVal x / 2 ^ s) := by
  have hXlt : toVal x < wordB ^ x.length := toVal_lt x hx
  by_cases hs : 32 * x.length ≤ s
  · have hzero : shr x s = zeros x.length := by
      show (if 32 * x.length ≤ s then zeros x.length else _) = zeros x.length
      rw [if_pos hs]
    have hV : toVal x / 2 ^ s = 0 := by
      apply Nat.div_eq_of_lt
      calc toVal x < wordB ^ x.length := hXlt
      _ = 2 ^ (32 * x.length) := by rw [wordB, ← pow_mul]
      _ ≤ 2 ^ s := Nat.pow_le_pow_right (by norm_num) hs
    rw [hzero, hV, wordsOfVal_zero]
  · push_neg at hs
    have hmap : shr x s = (List.range x.length).map (fun i =>
        if x.length - s / 32 ≤ i then 0
        else if s % 32 = 0 then x.getD (i + s / 32) 0
        else if i = x.length - s / 32 - 1 then x.getD (i + s / 32) 0 / 2 ^ (s % 32)
        else x.getD (i + s / 32) 0 / 2 ^ (s % 32) |||
          x.getD (i + s / 32 + 1) 0 * 2 ^ (32 - s % 32) % wordB) := by
      show (if 32 * x.length ≤ s then zeros x.length else _) = _
      rw [if_neg (by omega)]
    rw [hmap, wordsOfVal]
    apply List.map_congr_left
    intro i hi
    have hin : i < x.length := List.mem_range.mp hi
    have hfs : s / 32 < x.length := by
      rw [Nat.div_lt_iff_lt_mul (by norm_num)]
      omega
    have hl32 : s % 32 < 32 := Nat.mod_lt s (by norm_num)
    have hdm : 32 * (s / 32) + s % 32 = s := Nat.div_add_mod s 32
    have hps : (2 : Nat) ^ s = wordB ^ (s / 32) * 2 ^ (s % 32) := by
      rw [wordB, ← pow_mul, ← pow_add]
      congr 1
      omega
    by_cases htop : x.length - s / 32 ≤ i
    · rw [if_pos htop]
      have hVsmall : toVal x / 2 ^ s < wordB ^ (x.length - s / 32) := by
        have h1 : toVal x / 2 ^ s ≤ toVal x / wordB ^ (s / 32) := by
          apply Nat.div_le_div_left
          · rw [hps]
            exact Nat.le_mul_of_pos_right _ (Nat.pos_pow_of_pos _ (by norm_num))
          · exact wordB_pow_pos _
        have h2 : toVal x / wordB ^ (s / 32) < wordB ^ (x.length - s / 32) := by
          rw [Nat.div_lt_iff_lt_mul (wordB_pow_pos _), ← pow_add]
          calc toVal x < wordB ^ x.length := hXlt
          _ = wordB ^ (x.length - s / 32 + s / 32) := by
              congr 1
              omega
        omega
      have hZ : toVal x / 2 ^ s / wordB ^ i = 0 := by
        apply Nat.div_eq_of_lt
        calc toVal x / 2 ^ s < wordB ^ (x.length - s / 32) := hVsmall
        _ ≤ wordB ^ i := Nat.pow_le_pow_right (le_of_lt (by norm_num [wordB])) htop
      rw [hZ]
      simp
    · rw [if_neg htop]
      push_neg at htop
      have hdd : toVal x / 2 ^ s / wordB ^ i = toVal x / wordB ^ (i + s / 32) / 2 ^ (s % 32) := by
        rw [Nat.div_div_eq_div_mul, Nat.div_div_eq_div_mul]
        congr 1
        rw [hps, pow_add]
        ring
      by_cases hsm0 : s % 32 = 0
      · rw [if_pos hsm0, hdd, hsm0, pow_zero, Nat.div_one, getD_eq_val x hx]
      · rw [if_neg hsm0]
        by_cases hitop : i = x.length - s / 32 - 1
        · rw [if_pos hitop, hdd, getD_eq_val x hx]
          have hUlt : toVal x / wordB ^ (i + s / 32) < wordB := by
            rw [Nat.div_lt_iff_lt_mul (wordB_pow_pos _), ← pow_succ']
            calc toVal x < wordB ^ x.length := hXlt
            _ ≤ wordB ^ (i + s / 32 + 1) := by
                apply Nat.pow_le_pow_right (le_of_lt (by norm_num [wordB]))
                omega
          rw [Nat.mod_eq_of_lt hUlt,
            Nat.mod_eq_of_lt (lt_of_le_of_lt (Nat.div_le_self _ _) hUlt)]
        · rw [if_neg hitop, hdd, getD_eq_val x hx, getD_eq_val x hx]
          exact shr_word_core (toVal x) (i + s / 32) (s % 32) hsm0 hl32

theorem shr_length (x : List Nat) (s : Nat) : (shr x s).length = x.length := by
  show (if 32 * x.length ≤ s then zeros x.length else _).length = x.length
  split
  · simp [zeros]
  · simp

theorem shr_ok (x : List Nat) (s : Nat) (hx : WordsOk x) : WordsOk (shr x s) := by
  rw [shr_eq x s hx]
  exact wordsOfVal_ok _ _

theorem shr_val (x : List Nat) (s : Nat) (hx : WordsOk x) :
    toVal (shr x s) = toVal x / 2 ^ s := by
  rw [shr_eq x s hx]
  exact toVal_wordsOfVal _ _ (lt_of_le_of_lt (Nat.div_le_self _ _) (toVal_lt x hx))

end Bigint

namespace Bigint

theorem toVal_eq_zero (ws : List Nat) (h : toVal ws = 0) : ∀ w ∈ ws, w = 0 := by
  induction ws with
  | nil => simp
  | cons w ws ih =>
    rw [toVal_cons] at h
    have hw : w = 0 := by omega
    have hm : wordB * toVal ws = 0 := by omega
    have ht : toVal ws = 0 := by
      rcases Nat.mul_eq_zero.mp hm with h2 | h2
      · have := wordB_pos
        omega
      · exact h2
    intro v hv
    rcases (by simpa using hv : v = w ∨ v ∈ ws) with h3 | h3
    · omega
    · exact ih ht v h3

theorem valBE_eq_zero (ws : List Nat) (h : valBE ws = 0) : ∀ w ∈ ws, w = 0 := by
  intro w hw
  have h2 : toVal ws.reverse = 0 := by
    rw [← valBE_reverse ws.reverse, List.reverse_reverse]
    exact h
  exact toVal_eq_zero ws.reverse h2 w (by simpa using hw)

theorem wordB_pow_mul (k : Nat) : wordB ^ k = 2 ^ (32 * k) := by
  rw [wordB, ← pow_mul]

theorem numBitsScan_le (bs : List Nat) (h : WordsOk bs) : numBitsScan bs ≤ 32 * bs.length := by
  induction bs with
  | nil => simp [numBitsScan]
  | cons w ws ih =>
    have hw : w < wordB := h w (by simp)
    have hbl := (bitLen_bounds w hw).2.1
    have htail := ih (fun v hv => h v (by simp [hv]))
    rw [numBitsScan]
    by_cases h1 : w = 0 ∧ ws ≠ []
    · rw [if_pos h1]
      simp only [List.length_cons]
      omega
    · rw [if_neg h1]
      by_cases h2 : w = 0
      · rw [if_pos h2]
        omega
      · rw [if_neg h2]
        simp only [List.length_cons]
        omega

theorem numBitsScan_cons_zero_le (bs : List Nat) (h : WordsOk bs) :
    numBitsScan (0 :: bs) ≤ 32 * bs.length := by
  by_cases hbs : bs = []
  · subst hbs
    simp [numBitsScan]
  · rw [numBitsScan, if_pos ⟨rfl, hbs⟩]
    exact numBitsScan_le bs h

theorem numBitsScan_bounds (bs : List Nat) (h : WordsOk bs) (hne : valBE bs ≠ 0) :
    2 ^ (numBitsScan bs - 1) ≤ valBE bs ∧ valBE bs < 2 ^ numBitsScan bs := by
  induction bs with
  | nil => simp [valBE] at hne
  | cons w ws ih =>
    have hw : w < wordB := h w (by simp)
    have htail : WordsOk ws := fun v hv => h v (by simp [hv])
    by_cases hw0 : w = 0
    · by_cases hws : ws = []
      · subst hws
        subst hw0
        simp [valBE] at hne
      · rw [numBitsScan, if_pos ⟨hw0, hws⟩]
        have hval : valBE (w :: ws) = valBE ws := by
          rw [valBE, hw0, Nat.zero_mul, Nat.zero_add]
        rw [hval] at hne ⊢
        exact ih htail hne
    · have hnb : numBitsScan (w :: ws) = 32 * ws.length + bitLen w := by
        rw [numBitsScan, if_neg (by tauto), if_neg hw0]
      obtain ⟨hblt, hble, hbge⟩ := bitLen_bounds w hw
      have hbge2 := hbge hw0
      have hbpos := bitLen_pos w hw0
      have hvlt : valBE ws < wordB ^ ws.length := valBE_lt ws htail
      rw [hnb]
      constructor
      · have hsplit : 2 ^ (32 * ws.length + bitLen w - 1) =
            2 ^ (bitLen w - 1) * 2 ^ (32 * ws.length) := by
          rw [← pow_add]
          congr 1
          omega
        rw [valBE, hsplit, ← wordB_pow_mul]
        calc 2 ^ (bitLen w - 1) * wordB ^ ws.length ≤ w * wordB ^ ws.length :=
              Nat.mul_le_mul_right _ hbge2
        _ ≤ w * wordB ^ ws.length + valBE ws := Nat.le_add_right _ _
      · have hsplit : 2 ^ (32 * ws.length + bitLen w) =
            2 ^ bitLen w * 2 ^ (32 * ws.length) := by
          rw [← pow_add]
          congr 1
          omega
        rw [valBE, hsplit, ← wordB_pow_mul]
        calc w * wordB ^ ws.length + valBE ws < w * wordB ^ ws.length + wordB ^ ws.length := by
              omega
        _ = (w + 1) * wordB ^ ws.length := by ring
        _ ≤ 2 ^ bitLen w * wordB ^ ws.length := Nat.mul_le_mul_right _ (by omega)

theorem num_bits_le (x : List Nat) (hx : WordsOk x) : num_bits x ≤ 32 * x.length := by
  have := numBitsScan_le x.reverse (fun w hw => hx w (by simpa using hw))
  simpa [num_bits] using this

theorem num_bits_bounds (x : List Nat) (hx : WordsOk x) (h0 : toVal x ≠ 0) :
    2 ^ (num_bits x - 1) ≤ toVal x ∧ toVal x < 2 ^ num_bits x := by
  have hrev : valBE x.reverse = toVal x := valBE_reverse x
  have := numBitsScan_bounds x.reverse (fun w hw => hx w (by simpa using hw))
    (by rw [hrev]; exact h0)
  rw [hrev] at this
  exact this

theorem num_bits_pos (x : List Nat) (hx : WordsOk x) (h0 : toVal x ≠ 0) : 1 ≤ num_bits x := by
  by_contra hc
  push_neg at hc
  have h1 : num_bits x = 0 := by omega
  have := (num_bits_bounds x hx h0).2
  rw [h1] at this
  omega

theorem gtScan_eq_ltScan (as_ bs : List Nat) : gtScan as_ bs = ltScan bs as_ := by
  induction as_ generalizing bs with
  | nil => cases bs <;> simp [gtScan, ltScan]
  | cons a as_ ih =>
    cases bs with
    | nil => simp [gtScan, ltScan]
    | cons b bs =>
      rw [gtScan, ltScan, ih bs]
      by_cases h1 : a ≠ 0 ∨ b ≠ 0
      · rw [if_pos h1, if_pos (by tauto)]
      · rw [if_neg h1, if_neg (by tauto)]

theorem ltScan_sound (as_ bs : List Nat) (hlen : as_.length = bs.length)
    (ha : WordsOk as_) (hb : WordsOk bs) (h : ltScan as_ bs = true) : valBE as_ < valBE bs := by
  induction as_ generalizing bs with
  | nil =>
    cases bs with
    | nil => simp [ltScan] at h
    | cons b bs => simp at hlen
  | cons a as_ ih =>
    cases bs with
    | nil => simp at hlen
    | cons b bs =>
      have hlen2 : as_.length = bs.length := by simpa using hlen
      have hat : WordsOk as_ := fun v hv => ha v (by simp [hv])
      have hbt : WordsOk bs := fun v hv => hb v (by simp [hv])
      rw [ltScan] at h
      by_cases hcond : a ≠ 0 ∨ b ≠ 0
      · rw [if_pos hcond] at h
        have hab : a < b := by simpa using h
        have hva : valBE as_ < wordB ^ as_.length := valBE_lt as_ hat
        rw [valBE, valBE, hlen2]
        calc a * wordB ^ bs.length + valBE as_ < a * wordB ^ bs.length + wordB ^ as_.length := by
              omega
        _ = (a + 1) * wordB ^ bs.length + 0 := by rw [hlen2]; ring
        _ ≤ b * wordB ^ bs.length + valBE bs := by
              have : (a + 1) * wordB ^ bs.length ≤ b * wordB ^ bs.length :=
                Nat.mul_le_mul_right _ (by omega)
              omega
      · rw [if_neg hcond] at h
        push_neg at hcond
        rw [valBE, valBE, hcond.1, hcond.2]
        simpa using ih bs hlen2 hat hbt h

theorem ltScan_false_nb (as_ bs : List Nat) (hlen : as_.length = bs.length)
    (ha : WordsOk as_) (hb : WordsOk bs) (h : ltScan as_ bs = false) :
    numBitsScan bs ≤ numBitsScan as_ ∧ (valBE bs ≠ 0 → valBE as_ ≠ 0) := by
  induction as_ generalizing bs with
  | nil =>
    cases bs with
    | nil => simp [numBitsScan, valBE]
    | cons b bs => simp at hlen
  | cons a as_ ih =>
    cases bs with
    | nil => simp at hlen
    | cons b bs =>
      have hlen2 : as_.length = bs.length := by simpa using hlen
      have hat : WordsOk as_ := fun v hv => ha v (by simp [hv])
      have hbt : WordsOk bs := fun v hv => hb v (by simp [hv])
      have haw : a < wordB := ha a (by simp)
      rw [ltScan] at h
      by_cases hcond : a ≠ 0 ∨ b ≠ 0
      · rw [if_pos hcond] at h
        have hba : b ≤ a := by simpa using h
        by_cases hb0 : b = 0
        · have ha0 : a ≠ 0 := by tauto
          have hRHS : numBitsScan (a :: as_) = 32 * as_.length + bitLen a := by
            rw [numBitsScan, if_neg (by tauto), if_neg ha0]
          have hapos := bitLen_pos a ha0
          constructor
          · subst hb0
            have := numBitsScan_cons_zero_le bs hbt
            rw [hRHS, hlen2]
            omega
          · intro _
            rw [valBE]
            have h1 : 1 ≤ a := by omega
            have hp := wordB_pow_pos as_.length
            have h2 : 1 * 1 ≤ a * wordB ^ as_.length := Nat.mul_le_mul h1 hp
            omega
        · have ha0 : a ≠ 0 := by omega
          have hRHS : numBitsScan (a :: as_) = 32 * as_.length + bitLen a := by
            rw [numBitsScan, if_neg (by tauto), if_neg ha0]
          have hLHS : numBitsScan (b :: bs) = 32 * bs.length + bitLen b := by
            rw [numBitsScan, if_neg (by tauto), if_neg hb0]
          constructor
          · rw [hLHS, hRHS, hlen2]
            have := bitLen_mono b a hba
            omega
          · intro _
            rw [valBE]
            have h1 : 1 ≤ a := by omega
            have hp := wordB_pow_pos as_.length
            have h2 : 1 * 1 ≤ a * wordB ^ as_.length := Nat.mul_le_mul h1 hp
            omega
      · rw [if_neg hcond] at h
        push_neg at hcond
        obtain ⟨ha0, hb0⟩ := hcond
        subst ha0
        subst hb0
        obtain ⟨ih1, ih2⟩ := ih bs hlen2 hat hbt h
        constructor
        · by_cases hbs : bs = []
          · have has : as_ = [] := by
              subst hbs
              cases as_ with
              | nil => rfl
              | cons v vs => simp at hlen2
            subst hbs
            subst has
            simp [numBitsScan]
          · have has : as_ ≠ [] := by
              cases as_ with
              | nil =>
                rw [List.length_nil] at hlen2
                exact absurd (List.length_eq_zero.mp hlen2.symm) hbs
              | cons v vs => simp
            rw [numBitsScan, if_pos ⟨rfl, hbs⟩, numBitsScan, if_pos ⟨rfl, has⟩]
            exact ih1
        · intro hvb
          have hvb2 : valBE bs ≠ 0 := by
            rw [valBE] at hvb
            simpa using hvb
          have := ih2 hvb2
          rw [valBE]
          simpa using this

theorem lt_sound (x y : List Nat) (hlen : x.length = y.length) (hx : WordsOk x) (hy : WordsOk y)
    (h : lt x y = true) : toVal x < toVal y := by
  rw [← valBE_reverse x, ← valBE_reverse y]
  exact ltScan_sound x.reverse y.reverse (by simp [hlen])
    (fun w hw => hx w (by simpa using hw)) (fun w hw => hy w (by simpa using hw)) h

theorem gt_sound (x y : List Nat) (hlen : x.length = y.length) (hx : WordsOk x) (hy : WordsOk y)
    (h : gt x y = true) : toVal y < toVal x := by
  rw [gt, gtScan_eq_ltScan] at h
  exact lt_sound y x hlen.symm hy hx h

theorem lt_false_nb (x y : List Nat) (hlen : x.length = y.length) (hx : WordsOk x)
    (hy : WordsOk y) (h : lt x y = false) :
    num_bits y ≤ num_bits x ∧ (toVal y ≠ 0 → toVal x ≠ 0) := by
  have := ltScan_false_nb x.reverse y.reverse (by simp [hlen])
    (fun w hw => hx w (by simpa using hw)) (fun w hw => hy w (by simpa using hw)) h
  rw [valBE_reverse, valBE_reverse] at this
  exact this

end Bigint

namespace Bigint

theorem top_word_div (r : List Nat) (hr : WordsOk r) (hn : 0 < r.length) :
    r.getD (r.length - 1) 0 / 2 ^ 31 = toVal r / 2 ^ (32 * r.length - 1) := by
  rw [getD_eq_val r hr]
  have hV : toVal r < wordB ^ r.length := toVal_lt r hr
  have h1 : toVal r / wordB ^ (r.length - 1) < wordB := by
    rw [Nat.div_lt_iff_lt_mul (wordB_pow_pos _)]
    calc toVal r < wordB ^ r.length := hV
    _ = wordB ^ (r.length - 1) * wordB := by
        rw [← pow_succ]
        congr 1
        omega
    _ = wordB * wordB ^ (r.length - 1) := by ring
  rw [Nat.mod_eq_of_lt h1, Nat.div_div_eq_div_mul, wordB_pow_mul, ← pow_add,
    show 32 * (r.length - 1) + 31 = 32 * r.length - 1 from by omega]

theorem sub_val_ge (rem c : List Nat) (hlen : rem.length = c.length) (hro : WordsOk rem)
    (hco : WordsOk c) (hle : toVal c ≤ toVal rem) :
    toVal (sub rem c) = toVal rem - toVal c := by
  rw [sub_val rem c hlen hro hco,
    show toVal rem + wordB ^ rem.length - toVal c = toVal rem - toVal c + wordB ^ rem.length
      from by omega, Nat.add_mod_right]
  exact Nat.mod_eq_of_lt (lt_of_le_of_lt (by omega) (toVal_lt rem hro))

theorem sub_val_lt (rem c : List Nat) (hlen : rem.length = c.length) (hro : WordsOk rem)
    (hco : WordsOk c) (hlt : toVal rem < toVal c) :
    toVal (sub rem c) = wordB ^ rem.length - (toVal c - toVal rem) := by
  have hcb : toVal c < wordB ^ rem.length := by
    rw [hlen]
    exact toVal_lt c hco
  rw [sub_val rem c hlen hro hco,
    show toVal rem + wordB ^ rem.length - toVal c =
      wordB ^ rem.length - (toVal c - toVal rem) from by omega]
  exact Nat.mod_eq_of_lt (by omega)

theorem divStep_commit (rem quo c e : List Nat) (n : Nat)
    (hrl : rem.length = n) (hql : quo.length = n) (hcl : c.length = n) (hel : e.length = n)
    (hro : WordsOk rem) (hqo : WordsOk quo) (hco : WordsOk c) (heo : WordsOk e)
    (hn : 0 < n)
    (hle : toVal c ≤ toVal rem)
    (hsafe : toVal rem - toVal c < 2 ^ (32 * n - 1))
    (hadd : toVal quo + toVal e < wordB ^ n) :
    toVal (divStep rem quo c e).1 = toVal rem - toVal c ∧
      toVal (divStep rem quo c e).2 = toVal quo + toVal e ∧
      (divStep rem quo c e).1.length = n ∧ (divStep rem quo c e).2.length = n ∧
      WordsOk (divStep rem quo c e).1 ∧ WordsOk (divStep rem quo c e).2 := by
  have hlen : rem.length = c.length := by omega
  have hrv : toVal (sub rem c) = toVal rem - toVal c := sub_val_ge rem c hlen hro hco hle
  have hrlen : (sub rem c).length = n := by rw [sub_length rem c hlen]; omega
  have hrok : WordsOk (sub rem c) := sub_ok rem c
  have htop : (sub rem c).getD ((sub rem c).length - 1) 0 / 2 ^ 31 = 0 := by
    rw [top_word_div (sub rem c) hrok (by omega), hrv, hrlen]
    exact Nat.div_eq_of_lt hsafe
  have hstep : divStep rem quo c e = (sub rem c, add quo e) := by
    simp only [divStep]
    rw [if_pos (by rw [htop]; norm_num)]
  rw [hstep]
  refine ⟨hrv, ?_, hrlen, ?_, hrok, add_ok quo e⟩
  · show toVal (add quo e) = _
    rw [add_val quo e (by omega), hql]
    exact Nat.mod_eq_of_lt hadd
  · show (add quo e).length = n
    rw [add_length quo e (by omega)]
    omega

theorem divStep_skip (rem quo c e : List Nat) (n : Nat)
    (hrl : rem.length = n) (hcl : c.length = n)
    (hro : WordsOk rem) (hco : WordsOk c)
    (hn : 0 < n)
    (hlt : toVal rem < toVal c)
    (hsafe : toVal c - toVal rem ≤ 2 ^ (32 * n - 1)) :
    divStep rem quo c e = (rem, quo) := by
  have hlen : rem.length = c.length := by omega
  have hrv : toVal (sub rem c) = wordB ^ rem.length - (toVal c - toVal rem) :=
    sub_val_lt rem c hlen hro hco hlt
  have hrlen : (sub rem c).length = n := by rw [sub_length rem c hlen]; omega
  have hrok : WordsOk (sub rem c) := sub_ok rem c
  have hpow2 : wordB ^ rem.length = 2 ^ (32 * n - 1) * 2 := by
    rw [hrl, wordB_pow_mul, ← pow_succ]
    congr 1
    omega
  have htop : (sub rem c).getD ((sub rem c).length - 1) 0 / 2 ^ 31 = 1 := by
    rw [top_word_div (sub rem c) hrok (by omega), hrv, hrlen]
    have hp := Nat.pos_pow_of_pos (32 * n - 1) (show 0 < 2 by norm_num)
    have hub : wordB ^ rem.length - (toVal c - toVal rem) < 2 ^ (32 * n - 1) * 2 := by
      have h1 : 1 ≤ toVal c - toVal rem := by omega
      omega
    have hlb : 2 ^ (32 * n - 1) ≤ wordB ^ rem.length - (toVal c - toVal rem) := by omega
    have h1 : 1 ≤ (wordB ^ rem.length - (toVal c - toVal rem)) / 2 ^ (32 * n - 1) :=
      (Nat.le_div_iff_mul_le hp).mpr (by omega)
    have h2 : (wordB ^ rem.length - (toVal c - toVal rem)) / 2 ^ (32 * n - 1) < 2 := by
      rw [Nat.div_lt_iff_lt_mul hp]
      omega
    omega
  simp only [divStep]
  rw [if_neg (by rw [htop]; norm_num)]

theorem modStep_commit (rem c : List Nat) (n : Nat)
    (hrl : rem.length = n) (hcl : c.length = n)
    (hro : WordsOk rem) (hco : WordsOk c)
    (hn : 0 < n)
    (hle : toVal c ≤ toVal rem)
    (hsafe : toVal rem - toVal c < 2 ^ (32 * n - 1)) :
    modStep rem c = sub rem c ∧ toVal (modStep rem c) = toVal rem - toVal c := by
  have hlen : rem.length = c.length := by omega
  have hrv : toVal (sub rem c) = toVal rem - toVal c := sub_val_ge rem c hlen hro hco hle
  have hrlen : (sub rem c).length = n := by rw [sub_length rem c hlen]; omega
  have hrok : WordsOk (sub rem c) := sub_ok rem c
  have htop : (sub rem c).getD ((sub rem c).length - 1) 0 / 2 ^ 31 = 0 := by
    rw [top_word_div (sub rem c) hrok (by omega), hrv, hrlen]
    exact Nat.div_eq_of_lt hsafe
  have hstep : modStep rem c = sub rem c := by
    simp only [modStep]
    rw [if_pos htop]
  exact ⟨hstep, by rw [hstep, hrv]⟩

theorem modStep_skip (rem c : List Nat) (n : Nat)
    (hrl : rem.length = n) (hcl : c.length = n)
    (hro : WordsOk rem) (hco : WordsOk c)
    (hn : 0 < n)
    (hlt : toVal rem < toVal c)
    (hsafe : toVal c - toVal rem ≤ 2 ^ (32 * n - 1)) :
    modStep rem c = rem := by
  have hlen : rem.length = c.length := by omega
  have hrv : toVal (sub rem c) = wordB ^ rem.length - (toVal c - toVal rem) :=
    sub_val_lt rem c hlen hro hco hlt
  have hrlen : (sub rem c).length = n := by rw [sub_length rem c hlen]; omega
  have hrok : WordsOk (sub rem c) := sub_ok rem c
  have htop : (sub rem c).getD ((sub rem c).length - 1) 0 / 2 ^ 31 = 1 := by
    rw [top_word_div (sub rem c) hrok (by omega), hrv, hrlen]
    have hp := Nat.pos_pow_of_pos (32 * n - 1) (show 0 < 2 by norm_num)
    have hpow2 : wordB ^ rem.length = 2 ^ (32 * n - 1) * 2 := by
      rw [hrl, wordB_pow_mul, ← pow_succ]
      congr 1
      omega
    have h1 : 1 ≤ (wordB ^ rem.length - (toVal c - toVal rem)) / 2 ^ (32 * n - 1) :=
      (Nat.le_div_iff_mul_le hp).mpr (by omega)
    have h2 : (wordB ^ rem.length - (toVal c - toVal rem)) / 2 ^ (32 * n - 1) < 2 := by
      rw [Nat.div_lt_iff_lt_mul hp]
      have : 1 ≤ toVal c - toVal rem := by omega
      omega
    omega
  simp only [modStep]
  rw [if_neg (by rw [htop]; norm_num)]

end Bigint

namespace Bigint

theorem divLoop_succ (k : Nat) (rem quo c e : List Nat) :
    divLoop (k + 1) rem quo c e =
      divLoop k (divStep rem quo c e).1 (divStep rem quo c e).2 (shr c 1) (shr e 1) := by
  show (match divStep rem quo c e with
    | (rem1, quo1) => divLoop k rem1 quo1 (shr c 1) (shr e 1)) = _
  rcases divStep rem quo c e with ⟨a, b⟩
  rfl

theorem divLoop_shape (n : Nat) : ∀ (k : Nat) (rem quo c e : List Nat),
    rem.length = n → quo.length = n → c.length = n → e.length = n →
    WordsOk rem → WordsOk quo → WordsOk c → WordsOk e →
    (divLoop k rem quo c e).1.length = n ∧ (divLoop k rem quo c e).2.length = n ∧
      WordsOk (divLoop k rem quo c e).1 ∧ WordsOk (divLoop k rem quo c e).2 := by
  have hstep : ∀ (rem quo c e : List Nat), rem.length = n → quo.length = n → c.length = n →
      e.length = n → WordsOk rem → WordsOk quo → WordsOk c → WordsOk e →
      (divStep rem quo c e).1.length = n ∧ (divStep rem quo c e).2.length = n ∧
        WordsOk (divStep rem quo c e).1 ∧ WordsOk (divStep rem quo c e).2 := by
    intro rem quo c e h1 h2 h3 h4 o1 o2 o3 o4
    simp only [divStep]
    split
    · refine ⟨?_, ?_, sub_ok rem c, add_ok quo e⟩
      · show (sub rem c).length = n
        rw [sub_length rem c (by omega)]
        omega
      · show (add quo e).length = n
        rw [add_length quo e (by omega)]
        omega
    · exact ⟨h1, h2, o1, o2⟩
  intro k
  induction k with
  | zero =>
    intro rem quo c e h1 h2 h3 h4 o1 o2 o3 o4
    exact hstep rem quo c e h1 h2 h3 h4 o1 o2 o3 o4
  | succ k ih =>
    intro rem quo c e h1 h2 h3 h4 o1 o2 o3 o4
    obtain ⟨s1, s2, s3, s4⟩ := hstep rem quo c e h1 h2 h3 h4 o1 o2 o3 o4
    rw [divLoop_succ]
    exact ih _ _ (shr c 1) (shr e 1) s1 s2 (by rw [shr_length]; omega)
      (by rw [shr_length]; omega) s3 s4 (shr_ok c 1 o3) (shr_ok e 1 o4)

theorem modLoop_shape (n : Nat) : ∀ (k : Nat) (rem c : List Nat),
    rem.length = n → c.length = n → WordsOk rem → WordsOk c →
    (modLoop k rem c).length = n ∧ WordsOk (modLoop k rem c) := by
  have hstep : ∀ (rem c : List Nat), rem.length = n → c.length = n → WordsOk rem → WordsOk c →
      (modStep rem c).length = n ∧ WordsOk (modStep rem c) := by
    intro rem c h1 h3 o1 o3
    simp only [modStep]
    split
    · constructor
      · show (sub rem c).length = n
        rw [sub_length rem c (by omega)]
        omega
      · exact sub_ok rem c
    · exact ⟨h1, o1⟩
  intro k
  induction k with
  | zero => exact fun rem c h1 h3 o1 o3 => hstep rem c h1 h3 o1 o3
  | succ k ih =>
    intro rem c h1 h3 o1 o3
    obtain ⟨s1, s2⟩ := hstep rem c h1 h3 o1 o3
    exact ih (modStep rem c) (shr c 1) s1 (by rw [shr_length]; omega) s2 (shr_ok c 1 o3)

theorem divLoop_spec (B A n : Nat) (hn : 0 < n) (hB : 0 < B) (hA : A < wordB ^ n) :
    ∀ (k : Nat) (rem quo c e : List Nat),
    rem.length = n → quo.length = n → c.length = n → e.length = n →
    WordsOk rem → WordsOk quo → WordsOk c → WordsOk e →
    toVal c = B * 2 ^ k → toVal e = 2 ^ k →
    toVal c ≤ 2 ^ (32 * n - 1) →
    toVal rem < 2 * toVal c →
    toVal rem + toVal quo * B = A →
    toVal (divLoop k rem quo c e).1 + toVal (divLoop k rem quo c e).2 * B = A ∧
      toVal (divLoop k rem quo c e).1 < B := by
  intro k
  induction k with
  | zero =>
    intro rem quo c e h1 h2 h3 h4 o1 o2 o3 o4 hc he hcs hr2 hinv
    rw [pow_zero, Nat.mul_one] at hc
    rw [pow_zero] at he
    show toVal (divStep rem quo c e).1 + toVal (divStep rem quo c e).2 * B = A ∧
      toVal (divStep rem quo c e).1 < B
    rcases le_or_lt (toVal c) (toVal rem) with hle | hlt
    · have hadd : toVal quo + toVal e < wordB ^ n := by
        have h5 : (toVal quo + toVal e) * B ≤ A := by
          have : toVal e * B = toVal c := by rw [he, hc]; ring
          have h6 : toVal quo * B + toVal e * B ≤ toVal quo * B + toVal rem := by omega
          calc (toVal quo + toVal e) * B = toVal quo * B + toVal e * B := by ring
          _ ≤ toVal quo * B + toVal rem := h6
          _ = A := by omega
        have h7 : toVal quo + toVal e ≤ (toVal quo + toVal e) * B :=
          Nat.le_mul_of_pos_right _ hB
        omega
      obtain ⟨hv1, hv2, _, _, _, _⟩ := divStep_commit rem quo c e n h1 h2 h3 h4 o1 o2 o3 o4 hn
        hle (by omega) hadd
      rw [hv1, hv2]
      constructor
      · have : (toVal quo + toVal e) * B = toVal quo * B + toVal e * B := by ring
        have he2 : toVal e * B = toVal c := by rw [he, hc]; ring
        omega
      · omega
    · rw [divStep_skip rem quo c e n h1 h3 o1 o3 hn hlt (by omega)]
      simp only
      exact ⟨hinv, by omega⟩
  | succ k ih =>
    intro rem quo c e h1 h2 h3 h4 o1 o2 o3 o4 hc he hcs hr2 hinv
    have hcpos : 0 < toVal c := by
      rw [hc]
      exact Nat.mul_pos hB (Nat.pos_pow_of_pos _ (by norm_num))
    have hc2 : toVal (shr c 1) = B * 2 ^ k := by
      rw [shr_val c 1 o3, hc, pow_one,
        show B * 2 ^ (k + 1) = B * 2 ^ k * 2 from by ring, Nat.mul_div_cancel _ (by norm_num)]
    have he2 : toVal (shr e 1) = 2 ^ k := by
      rw [shr_val e 1 o4, he, pow_one, pow_succ, Nat.mul_div_cancel _ (by norm_num)]
    have hck : toVal c = 2 * (B * 2 ^ k) := by
      rw [hc]
      ring
    rw [divLoop_succ]
    rcases le_or_lt (toVal c) (toVal rem) with hle | hlt
    · have hadd : toVal quo + toVal e < wordB ^ n := by
        have h5 : (toVal quo + toVal e) * B ≤ A := by
          have he3 : toVal e * B = toVal c := by rw [he, hc]; ring
          calc (toVal quo + toVal e) * B = toVal quo * B + toVal e * B := by ring
          _ ≤ toVal quo * B + toVal rem := by omega
          _ = A := by omega
        have h7 : toVal quo + toVal e ≤ (toVal quo + toVal e) * B :=
          Nat.le_mul_of_pos_right _ hB
        omega
      obtain ⟨hv1, hv2, hl1, hl2, ho1, ho2⟩ := divStep_commit rem quo c e n h1 h2 h3 h4
        o1 o2 o3 o4 hn hle (by omega) hadd
      have hinv2 : toVal (divStep rem quo c e).1 + toVal (divStep rem quo c e).2 * B = A := by
        rw [hv1, hv2]
        have : (toVal quo + toVal e) * B = toVal quo * B + toVal e * B := by ring
        have he3 : toVal e * B = toVal c := by rw [he, hc]; ring
        omega
      exact ih _ _ (shr c 1) (shr e 1) hl1 hl2 (by rw [shr_length]; omega)
        (by rw [shr_length]; omega) ho1 ho2 (shr_ok c 1 o3) (shr_ok e 1 o4) hc2 he2
        (by omega) (by rw [hv1, hc2]; omega) hinv2
    · rw [divStep_skip rem quo c e n h1 h3 o1 o3 hn hlt (by omega)]
      simp only
      exact ih rem quo (shr c 1) (shr e 1) h1 h2 (by rw [shr_length]; omega)
        (by rw [shr_length]; omega) o1 o2 (shr_ok c 1 o3) (shr_ok e 1 o4) hc2 he2
        (by omega) (by omega) hinv

theorem modLoop_spec (B A n : Nat) (hn : 0 < n) (hB : 0 < B) :
    ∀ (k : Nat) (rem c : List Nat),
    rem.length = n → c.length = n →
    WordsOk rem → WordsOk c →
    toVal c = B * 2 ^ k →
    toVal c ≤ 2 ^ (32 * n - 1) →
    toVal rem < 2 * toVal c →
    toVal rem % B = A % B →
    toVal (modLoop k rem c) % B = A % B ∧ toVal (modLoop k rem c) < B := by
  intro k
  induction k with
  | zero =>
    intro rem c h1 h3 o1 o3 hc hcs hr2 hinv
    rw [pow_zero, Nat.mul_one] at hc
    show toVal (modStep rem c) % B = A % B ∧ toVal (modStep rem c) < B
    rcases le_or_lt (toVal c) (toVal rem) with hle | hlt
    · obtain ⟨_, hv⟩ := modStep_commit rem c n h1 h3 o1 o3 hn hle (by omega)
      rw [hv]
      constructor
      · have hmod : (toVal rem - toVal c) % B = toVal rem % B := by
          conv_rhs => rw [show toVal rem = toVal rem - toVal c + toVal c from by omega]
          rw [hc, Nat.add_mod_right]
        omega
      · omega
    · rw [modStep_skip rem c n h1 h3 o1 o3 hn hlt (by omega)]
      exact ⟨hinv, by omega⟩
  | succ k ih =>
    intro rem c h1 h3 o1 o3 hc hcs hr2 hinv
    have hc2 : toVal (shr c 1) = B * 2 ^ k := by
      rw [shr_val c 1 o3, hc, pow_one,
        show B * 2 ^ (k + 1) = B * 2 ^ k * 2 from by ring, Nat.mul_div_cancel _ (by norm_num)]
    have hck : toVal c = 2 * (B * 2 ^ k) := by
      rw [hc]
      ring
    show toVal (modLoop k (modStep rem c) (shr c 1)) % B = A % B ∧
      toVal (modLoop k (modStep rem c) (shr c 1)) < B
    rcases le_or_lt (toVal c) (toVal rem) with hle | hlt
    · obtain ⟨hse, hv⟩ := modStep_commit rem c n h1 h3 o1 o3 hn hle (by omega)
      have hmod : (toVal rem - toVal c) % B = toVal rem % B := by
        conv_rhs => rw [show toVal rem = toVal rem - toVal c + toVal c from by omega]
        rw [hc, Nat.add_mul_mod_self_left]
      have hsl : (modStep rem c).length = n := by
        rw [hse, sub_length rem c (by omega)]
        omega
      exact ih (modStep rem c) (shr c 1) hsl (by rw [shr_length]; omega)
        (by rw [hse]; exact sub_ok rem c) (shr_ok c 1 o3) hc2 (by omega)
        (by rw [hv]; omega) (by rw [hv]; omega)
    · rw [modStep_skip rem c n h1 h3 o1 o3 hn hlt (by omega)]
      exact ih rem (shr c 1) h1 (by rw [shr_length]; omega) o1 (shr_ok c 1 o3) hc2
        (by omega) (by omega) hinv

end Bigint

namespace Bigint

theorem ofULL_length (n x : Nat) : (ofULL n x).length = n := by
  simp [ofULL, zeros]

theorem ofULL_ok (n x : Nat) : WordsOk (ofULL n x) := by
  intro w hw
  rcases List.mem_or_eq_of_mem_set hw with hw2 | hw2
  · rcases List.mem_or_eq_of_mem_set hw2 with hw3 | hw3
    · simp [zeros] at hw3
      simpa [hw3] using wordB_pos
    · subst hw3
      exact Nat.mod_lt _ wordB_pos
  · subst hw2
    exact Nat.mod_lt _ wordB_pos

theorem ofULL_one_val (n : Nat) (hn : 0 < n) : toVal (ofULL n 1) = 1 := by
  have h1 : (1 : Nat) % 2 ^ 64 % wordB = 1 := by norm_num [wordB]
  have h2 : (1 : Nat) % 2 ^ 64 / wordB % wordB = 0 := by norm_num [wordB]
  rcases n with _ | _ | m
  · omega
  · show toVal (((zeros 1).set 0 (1 % 2 ^ 64 % wordB)).set 1 (1 % 2 ^ 64 / wordB % wordB)) = 1
    rw [h1, h2]
    decide
  · show toVal (((zeros (m + 2)).set 0 (1 % 2 ^ 64 % wordB)).set 1
      (1 % 2 ^ 64 / wordB % wordB)) = 1
    rw [h1, h2]
    show toVal (((0 :: 0 :: zeros m).set 0 1).set 1 0) = 1
    rw [List.set_cons_zero, List.set_cons_succ, List.set_cons_zero, toVal_cons, toVal_cons,
      toVal_zeros]
    ring

theorem ofULL_zero_val (n : Nat) : toVal (ofULL n 0) = 0 := by
  have h1 : (0 : Nat) % 2 ^ 64 % wordB = 0 := by norm_num
  have h2 : (0 : Nat) % 2 ^ 64 / wordB % wordB = 0 := by norm_num
  rcases n with _ | _ | m
  · rfl
  · show toVal (((zeros 1).set 0 (0 % 2 ^ 64 % wordB)).set 1 (0 % 2 ^ 64 / wordB % wordB)) = 0
    rw [h1, h2]
    decide
  · show toVal (((zeros (m + 2)).set 0 (0 % 2 ^ 64 % wordB)).set 1
      (0 % 2 ^ 64 / wordB % wordB)) = 0
    rw [h1, h2]
    show toVal (((0 :: 0 :: zeros m).set 0 0).set 1 0) = 0
    rw [List.set_cons_zero, List.set_cons_succ, List.set_cons_zero, toVal_cons, toVal_cons,
      toVal_zeros]
    ring

theorem zeros_length (n : Nat) : (zeros n).length = n := by simp [zeros]

theorem zeros_ok (n : Nat) : WordsOk (zeros n) := by
  intro w hw
  simp [zeros] at hw
  simpa [hw] using wordB_pos

theorem div_shape (x y : List Nat) (hlen : x.length = y.length) (hx : WordsOk x)
    (hy : WordsOk y) : (div x y).length = x.length ∧ WordsOk (div x y) := by
  simp only [div]
  split
  · exact ⟨rfl, hx⟩
  · exact ⟨(divLoop_shape x.length _ _ _ _ _ rfl (zeros_length _)
      (by rw [shl_length]; omega) (by rw [shl_length, ofULL_length]) hx (zeros_ok _)
      (shl_ok y _ hy) (shl_ok _ _ (ofULL_ok _ 1))).2.1,
    (divLoop_shape x.length _ _ _ _ _ rfl (zeros_length _)
      (by rw [shl_length]; omega) (by rw [shl_length, ofULL_length]) hx (zeros_ok _)
      (shl_ok y _ hy) (shl_ok _ _ (ofULL_ok _ 1))).2.2.2⟩

theorem mod_shape (x y : List Nat) (hlen : x.length = y.length) (hx : WordsOk x)
    (hy : WordsOk y) : (mod x y).length = x.length ∧ WordsOk (mod x y) := by
  simp only [mod]
  split
  · exact ⟨rfl, hx⟩
  · exact modLoop_shape x.length _ _ _ rfl (by rw [shl_length]; omega) hx (shl_ok y _ hy)

end Bigint

namespace Bigint

theorem div_val_eq (x y : List Nat) (hlen : x.length = y.length) (hx : WordsOk x)
    (hy : WordsOk y) (hn : 0 < x.length) (hB : toVal y ≠ 0) (hnw : 32 * x.length < 2 ^ 32)
    (hfast : lt x y = false) :
    toVal (div x y) = toVal x / toVal y := by
  obtain ⟨hnb, hA0⟩ := lt_false_nb x y hlen hx hy hfast
  have hA0' : toVal x ≠ 0 := hA0 hB
  obtain ⟨hA1, hA2⟩ := num_bits_bounds x hx hA0'
  obtain ⟨hB1, hB2⟩ := num_bits_bounds y hy hB
  have hnbAle := num_bits_le x hx
  have hnbBpos := num_bits_pos y hy hB
  have hnbApos := num_bits_pos x hx hA0'
  have hBpos : 0 < toVal y := by omega
  have hAlt : toVal x < wordB ^ x.length := toVal_lt x hx
  have hbd : (num_bits x + 2 ^ 32 - num_bits y) % 2 ^ 32 = num_bits x - num_bits y := by
    rw [show num_bits x + 2 ^ 32 - num_bits y = num_bits x - num_bits y + 2 ^ 32 from by
      omega, Nat.add_mod_right]
    exact Nat.mod_eq_of_lt (by omega)
  have hexp_eq : num_bits y + (num_bits x - num_bits y) = num_bits x := by omega
  have hdouble : 2 ^ num_bits x = 2 * 2 ^ (num_bits x - 1) := by
    rw [← pow_succ']
    congr 1
    omega
  have hApow : (2 : Nat) ^ (num_bits x - 1) ≤ 2 ^ (32 * x.length - 1) :=
    Nat.pow_le_pow_right (by norm_num) (by omega)
  have hpow_le : (2 : Nat) ^ num_bits x ≤ wordB ^ x.length := by
    rw [wordB_pow_mul]
    exact Nat.pow_le_pow_right (by norm_num) hnbAle
  have hdivu : div x y = (divLoop (num_bits x - num_bits y) x (zeros x.length)
      (shl y (num_bits x - num_bits y)) (shl (ofULL x.length 1) (num_bits x - num_bits y))).2 := by
    simp only [div]
    rw [hfast]
    rw [if_neg (by simp), hbd]
  have hcval : toVal (shl y (num_bits x - num_bits y)) =
      toVal y * 2 ^ (num_bits x - num_bits y) := by
    have h1 := shl_val y (num_bits x - num_bits y) hy
    rw [← hlen] at h1
    rw [h1]
    apply Nat.mod_eq_of_lt
    calc toVal y * 2 ^ (num_bits x - num_bits y) <
        2 ^ num_bits y * 2 ^ (num_bits x - num_bits y) :=
          (Nat.mul_lt_mul_right (Nat.pos_pow_of_pos _ (by norm_num))).mpr hB2
    _ = 2 ^ num_bits x := by rw [← pow_add, hexp_eq]
    _ ≤ wordB ^ x.length := hpow_le
  have hcexp : toVal y * 2 ^ (num_bits x - num_bits y) < 2 ^ num_bits x := by
    calc toVal y * 2 ^ (num_bits x - num_bits y) <
        2 ^ num_bits y * 2 ^ (num_bits x - num_bits y) :=
          (Nat.mul_lt_mul_right (Nat.pos_pow_of_pos _ (by norm_num))).mpr hB2
    _ = 2 ^ num_bits x := by rw [← pow_add, hexp_eq]
  have hclow2 : 2 ^ (num_bits x - 1) ≤ toVal y * 2 ^ (num_bits x - num_bits y) := by
    calc (2 : Nat) ^ (num_bits x - 1) = 2 ^ (num_bits y - 1) * 2 ^ (num_bits x - num_bits y) := by
          rw [← pow_add]
          congr 1
          omega
    _ ≤ toVal y * 2 ^ (num_bits x - num_bits y) := Nat.mul_le_mul_right _ hB1
  have heval : toVal (shl (ofULL x.length 1) (num_bits x - num_bits y)) =
      2 ^ (num_bits x - num_bits y) := by
    have h1 := shl_val (ofULL x.length 1) (num_bits x - num_bits y) (ofULL_ok x.length 1)
    rw [ofULL_length, ofULL_one_val x.length hn, Nat.one_mul] at h1
    rw [h1]
    apply Nat.mod_eq_of_lt
    calc (2 : Nat) ^ (num_bits x - num_bits y) ≤ 2 ^ (num_bits x - 1) :=
          Nat.pow_le_pow_right (by norm_num) (by omega)
    _ < 2 ^ num_bits x := by omega
    _ ≤ wordB ^ x.length := hpow_le
  rw [hdivu]
  suffices h : ∀ (bd : Nat) (c e : List Nat), c.length = x.length → e.length = x.length →
      WordsOk c → WordsOk e →
      toVal c = toVal y * 2 ^ bd → toVal e = 2 ^ bd →
      2 ^ (num_bits x - 1) ≤ toVal c → toVal c < 2 ^ num_bits x →
      toVal (divLoop bd x (zeros x.length) c e).2 = toVal x / toVal y by
    exact h (num_bits x - num_bits y) _ _ (by rw [shl_length]; omega)
      (by rw [shl_length, ofULL_length]) (shl_ok y _ hy) (shl_ok _ _ (ofULL_ok _ 1))
      hcval heval (by rw [hcval]; exact hclow2) (by rw [hcval]; exact hcexp)
  intro bd c e hcl hel hco heo hcv hev hclow hchigh
  have hA2c : toVal x < 2 * toVal c := by omega
  have hsafe1 : toVal c ≤ toVal x → toVal x - toVal c < 2 ^ (32 * x.length - 1) := by
    intro hle
    omega
  have hsafe2 : toVal x < toVal c → toVal c - toVal x ≤ 2 ^ (32 * x.length - 1) := by
    intro hlt
    omega
  have hadd : toVal (zeros x.length) + toVal e < wordB ^ x.length := by
    rw [toVal_zeros, hev, Nat.zero_add]
    calc (2 : Nat) ^ bd ≤ toVal c := by
          calc (2 : Nat) ^ bd = 1 * 2 ^ bd := by ring
          _ ≤ toVal y * 2 ^ bd := Nat.mul_le_mul_right _ (by omega)
          _ = toVal c := hcv.symm
    _ < 2 ^ num_bits x := hchigh
    _ ≤ wordB ^ x.length := hpow_le
  cases bd with
  | zero =>
    show toVal (divStep x (zeros x.length) c e).2 = toVal x / toVal y
    have hcB : toVal c = toVal y := by
      rw [hcv, pow_zero, Nat.mul_one]
    have heB : toVal e = 1 := by rw [hev, pow_zero]
    rcases le_or_lt (toVal c) (toVal x) with hle | hlt
    · obtain ⟨hv1, hv2, _, _, _, _⟩ := divStep_commit x (zeros x.length) c e x.length rfl
        (zeros_length _) hcl hel hx (zeros_ok _) hco heo hn hle (hsafe1 hle) hadd
      rw [hv2, toVal_zeros, heB, Nat.zero_add]
      have h1 : 1 ≤ toVal x / toVal y := (Nat.le_div_iff_mul_le hBpos).mpr (by omega)
      have h2 : toVal x / toVal y < 2 := by
        rw [Nat.div_lt_iff_lt_mul hBpos]
        omega
      omega
    · rw [divStep_skip x (zeros x.length) c e x.length rfl hcl hx hco hn hlt (hsafe2 hlt)]
      simp only
      rw [toVal_zeros]
      rw [Nat.div_eq_of_lt (by omega)]
  | succ m =>
    rw [divLoop_succ]
    have hc2 : toVal (shr c 1) = toVal y * 2 ^ m := by
      rw [shr_val c 1 hco, hcv, pow_one,
        show toVal y * 2 ^ (m + 1) = toVal y * 2 ^ m * 2 from by ring,
        Nat.mul_div_cancel _ (by norm_num)]
    have he2 : toVal (shr e 1) = 2 ^ m := by
      rw [shr_val e 1 heo, hev, pow_one, pow_succ, Nat.mul_div_cancel _ (by norm_num)]
    have hck : toVal c = 2 * (toVal y * 2 ^ m) := by
      rw [hcv]
      ring
    have hfin : ∀ rem1 quo1 : List Nat, rem1.length = x.length → quo1.length = x.length →
        WordsOk rem1 → WordsOk quo1 →
        toVal rem1 < 2 * toVal (shr c 1) →
        toVal rem1 + toVal quo1 * toVal y = toVal x →
        toVal (divLoop m rem1 quo1 (shr c 1) (shr e 1)).2 = toVal x / toVal y := by
      intro rem1 quo1 hl1 hl2 ho1 ho2 hr2 hinv
      obtain ⟨hfin1, hfin2⟩ := divLoop_spec (toVal y) (toVal x) x.length hn hBpos hAlt m
        rem1 quo1 (shr c 1) (shr e 1) hl1 hl2 (by rw [shr_length]; omega)
        (by rw [shr_length]; omega) ho1 ho2 (shr_ok c 1 hco) (shr_ok e 1 heo) hc2 he2
        (by omega) hr2 hinv
      have hq : toVal x / toVal y =
          toVal (divLoop m rem1 quo1 (shr c 1) (shr e 1)).2 := by
        rw [← hfin1, Nat.add_mul_div_right _ _ hBpos, Nat.div_eq_of_lt hfin2, Nat.zero_add]
      omega
    rcases le_or_lt (toVal c) (toVal x) with hle | hlt
    · obtain ⟨hv1, hv2, hl1, hl2, ho1, ho2⟩ := divStep_commit x (zeros x.length) c e x.length
        rfl (zeros_length _) hcl hel hx (zeros_ok _) hco heo hn hle (hsafe1 hle) hadd
      apply hfin _ _ hl1 hl2 ho1 ho2
      · rw [hv1, hc2]
        omega
      · rw [hv1, hv2, toVal_zeros, hev, Nat.zero_add]
        have : 2 ^ (m + 1) * toVal y = toVal c := by rw [hcv]; ring
        omega
    · rw [divStep_skip x (zeros x.length) c e x.length rfl hcl hx hco hn hlt (hsafe2 hlt)]
      simp only
      apply hfin x (zeros x.length) rfl (zeros_length _) hx (zeros_ok _)
      · omega
      · rw [toVal_zeros]
        ring
  

theorem mod_val_eq (x y : List Nat) (hlen : x.length = y.length) (hx : WordsOk x)
    (hy : WordsOk y) (hn : 0 < x.length) (hB : toVal y ≠ 0) (hnw : 32 * x.length < 2 ^ 32) :
    toVal (mod x y) = toVal x % toVal y := by
  have hBpos : 0 < toVal y := Nat.pos_of_ne_zero hB
  by_cases hfast : lt x y = true
  · have hxy := lt_sound x y hlen hx hy hfast
    have hmx : mod x y = x := by
      simp only [mod]
      rw [hfast, if_pos rfl]
    rw [hmx, Nat.mod_eq_of_lt hxy]
  · have hfast2 : lt x y = false := by
      cases h : lt x y
      · rfl
      · exact absurd h hfast
    obtain ⟨hnb, hA0⟩ := lt_false_nb x y hlen hx hy hfast2
    have hA0' : toVal x ≠ 0 := hA0 hB
    obtain ⟨hA1, hA2⟩ := num_bits_bounds x hx hA0'
    obtain ⟨hB1, hB2⟩ := num_bits_bounds y hy hB
    have hnbAle := num_bits_le x hx
    have hnbBpos := num_bits_pos y hy hB
    have hnbApos := num_bits_pos x hx hA0'
    have hbd : (num_bits x + 2 ^ 32 - num_bits y) % 2 ^ 32 = num_bits x - num_bits y := by
      rw [show num_bits x + 2 ^ 32 - num_bits y = num_bits x - num_bits y + 2 ^ 32 from by
        omega, Nat.add_mod_right]
      exact Nat.mod_eq_of_lt (by omega)
    have hexp_eq : num_bits y + (num_bits x - num_bits y) = num_bits x := by omega
    have hdouble : 2 ^ num_bits x = 2 * 2 ^ (num_bits x - 1) := by
      rw [← pow_succ']
      congr 1
      omega
    have hApow : (2 : Nat) ^ (num_bits x - 1) ≤ 2 ^ (32 * x.length - 1) :=
      Nat.pow_le_pow_right (by norm_num) (by omega)
    have hpow_le : (2 : Nat) ^ num_bits x ≤ wordB ^ x.length := by
      rw [wordB_pow_mul]
      exact Nat.pow_le_pow_right (by norm_num) hnbAle
    have hmodu : mod x y = modLoop (num_bits x - num_bits y) x
        (shl y (num_bits x - num_bits y)) := by
      simp only [mod]
      rw [hfast2]
      rw [if_neg (by simp), hbd]
    have hcexp : toVal y * 2 ^ (num_bits x - num_bits y) < 2 ^ num_bits x := by
      calc toVal y * 2 ^ (num_bits x - num_bits y) <
          2 ^ num_bits y * 2 ^ (num_bits x - num_bits y) :=
            (Nat.mul_lt_mul_right (Nat.pos_pow_of_pos _ (by norm_num))).mpr hB2
      _ = 2 ^ num_bits x := by rw [← pow_add, hexp_eq]
    have hcval : toVal (shl y (num_bits x - num_bits y)) =
        toVal y * 2 ^ (num_bits x - num_bits y) := by
      have h1 := shl_val y (num_bits x - num_bits y) hy
      rw [← hlen] at h1
      rw [h1]
      exact Nat.mod_eq_of_lt (by omega)
    have hclow2 : 2 ^ (num_bits x - 1) ≤ toVal y * 2 ^ (num_bits x - num_bits y) := by
      calc (2 : Nat) ^ (num_bits x - 1) =
          2 ^ (num_bits y - 1) * 2 ^ (num_bits x - num_bits y) := by
            rw [← pow_add]
            congr 1
            omega
      _ ≤ toVal y * 2 ^ (num_bits x - num_bits y) := Nat.mul_le_mul_right _ hB1
    rw [hmodu]
    suffices h : ∀ (bd : Nat) (c : List Nat), c.length = x.length → WordsOk c →
        toVal c = toVal y * 2 ^ bd →
        2 ^ (num_bits x - 1) ≤ toVal c → toVal c < 2 ^ num_bits x →
        toVal (modLoop bd x c) = toVal x % toVal y by
      exact h (num_bits x - num_bits y) _ (by rw [shl_length]; omega) (shl_ok y _ hy)
        hcval (by rw [hcval]; exact hclow2) (by rw [hcval]; exact hcexp)
    intro bd c hcl hco hcv hclow hchigh
    have hA2c : toVal x < 2 * toVal c := by omega
    have hsafe1 : toVal c ≤ toVal x → toVal x - toVal c < 2 ^ (32 * x.length - 1) := by
      intro hle
      omega
    have hsafe2 : toVal x < toVal c → toVal c - toVal x ≤ 2 ^ (32 * x.length - 1) := by
      intro hlt
      omega
    cases bd with
    | zero =>
      show toVal (modStep x c) = toVal x % toVal y
      have hcB : toVal c = toVal y := by
        rw [hcv, pow_zero, Nat.mul_one]
      rcases le_or_lt (toVal c) (toVal x) with hle | hlt
      · obtain ⟨_, hv⟩ := modStep_commit x c x.length rfl hcl hx hco hn hle (hsafe1 hle)
        rw [hv, hcB]
        rw [Nat.mod_eq_sub_mod (by omega), Nat.mod_eq_of_lt (by omega)]
      · rw [modStep_skip x c x.length rfl hcl hx hco hn hlt (hsafe2 hlt)]
        rw [Nat.mod_eq_of_lt (by omega)]
    | succ m =>
      show toVal (modLoop m (modStep x c) (shr c 1)) = toVal x % toVal y
      have hc2 : toVal (shr c 1) = toVal y * 2 ^ m := by
        rw [shr_val c 1 hco, hcv, pow_one,
          show toVal y * 2 ^ (m + 1) = toVal y * 2 ^ m * 2 from by ring,
          Nat.mul_div_cancel _ (by norm_num)]
      have hck : toVal c = 2 * (toVal y * 2 ^ m) := by
        rw [hcv]
        ring
      have hfin : ∀ rem1 : List Nat, rem1.length = x.length → WordsOk rem1 →
          toVal rem1 < 2 * toVal (shr c 1) →
          toVal rem1 % toVal y = toVal x % toVal y →
          toVal (modLoop m rem1 (shr c 1)) = toVal x % toVal y := by
        intro rem1 hl1 ho1 hr2 hinv
        obtain ⟨hfin1, hfin2⟩ := modLoop_spec (toVal y) (toVal x) x.length hn hBpos m
          rem1 (shr c 1) hl1 (by rw [shr_length]; omega) ho1 (shr_ok c 1 hco) hc2
          (by omega) hr2 hinv
        rw [← hfin1, Nat.mod_eq_of_lt hfin2]
      rcases le_or_lt (toVal c) (toVal x) with hle | hlt
      · obtain ⟨hst, hv⟩ := modStep_commit x c x.length rfl hcl hx hco hn hle (hsafe1 hle)
        apply hfin _ (by rw [hst, sub_length x c (by omega)]) (by rw [hst]; exact sub_ok x c)
        · rw [hv, hc2]
          omega
        · rw [hv]
          conv_rhs => rw [show toVal x = toVal x - toVal c + toVal c from by omega,
            hcv, Nat.add_mul_mod_self_left]
          rw [hcv]
      · rw [modStep_skip x c x.length rfl hcl hx hco hn hlt (hsafe2 hlt)]
        exact hfin x rfl hx (by omega) rfl

theorem mod_lt (x y : List Nat) (hlen : x.length = y.length) (hx : WordsOk x)
    (hy : WordsOk y) (hn : 0 < x.length) (hB : toVal y ≠ 0) (hnw : 32 * x.length < 2 ^ 32) :
    toVal (mod x y) < toVal y := by
  rw [mod_val_eq x y hlen hx hy hn hB hnw]
  exact Nat.mod_lt _ (Nat.pos_of_ne_zero hB)

theorem eqWords_iff : ∀ (a b : List Nat), a.length = b.length → (eqWords a b = true ↔ a = b) := by
  intro a
  induction a with
  | nil =>
    intro b h
    cases b with
    | nil => simp [eqWords]
    | cons y ys => simp at h
  | cons x xs ih =>
    intro b h
    cases b with
    | nil => simp at h
    | cons y ys =>
      simp only [eqWords, Bool.and_eq_true, beq_iff_eq]
      rw [ih ys (by simpa using h)]
      constructor
      · rintro ⟨h1, h2⟩
        rw [h1, h2]
      · intro h1
        injection h1 with h1 h2
        exact ⟨h1, h2⟩

theorem neWords_eq : ∀ (a b : List Nat), neWords a b = !eqWords a b := by
  intro a
  induction a with
  | nil =>
    intro b
    cases b <;> rfl
  | cons x xs ih =>
    intro b
    cases b with
    | nil => rfl
    | cons y ys =>
      show (x != y || neWords xs ys) = !(x == y && eqWords xs ys)
      rw [ih ys, Bool.not_and, bne]

theorem neWords_zero_iff (b : List Nat) (hbo : WordsOk b) :
    (neWords b (zeros b.length) = true ↔ toVal b ≠ 0) := by
  rw [neWords_eq, Bool.not_eq_true']
  constructor
  · intro h hv
    have : b = zeros b.length := toVal_inj b (zeros b.length) hbo (zeros_ok _)
      (by rw [zeros_length]) (by rw [hv, toVal_zeros])
    rw [(eqWords_iff b (zeros b.length) (by rw [zeros_length])).mpr this] at h
    exact absurd h (by simp)
  · intro hv
    cases h : eqWords b (zeros b.length)
    · rfl
    · rw [eqWords_iff b (zeros b.length) (by rw [zeros_length])] at h
      exact absurd (by rw [h, toVal_zeros]) hv

theorem rngLoop_length (σ : Nat → Nat) :
    ∀ (count : Nat) (ws : List Nat) (ctr i : Nat),
    (rngLoop σ ws ctr i count).length = ws.length := by
  intro count
  induction count with
  | zero => intro ws ctr i; rfl
  | succ c ih =>
    intro ws ctr i
    show (rngLoop σ (ws.set i (σ ctr % wordB)) (ctr + 1) (i + 1) c).length = ws.length
    rw [ih, List.length_set]

theorem rngLoop_ok (σ : Nat → Nat) :
    ∀ (count : Nat) (ws : List Nat) (ctr i : Nat), WordsOk ws →
    WordsOk (rngLoop σ ws ctr i count) := by
  intro count
  induction count with
  | zero => intro ws ctr i h; exact h
  | succ c ih =>
    intro ws ctr i h
    apply ih
    intro w hw
    rcases List.mem_or_eq_of_mem_set hw with hmem | heq
    · exact h w hmem
    · rw [heq]
      exact Nat.mod_lt _ (by norm_num [wordB])

theorem rng_length (x : List Nat) (σ : Nat → Nat) (ctr size_max : Nat) :
    (rng x σ ctr size_max).1.length = x.length := by
  simp only [rng]
  rw [rngLoop_length]

theorem rng_ok (x : List Nat) (σ : Nat → Nat) (ctr size_max : Nat) (hx : WordsOk x) :
    WordsOk (rng x σ ctr size_max).1 := by
  simp only [rng]
  exact rngLoop_ok σ _ x ctr 0 hx

/-- Embedding of `Bigint::gcd`: the Euclidean loop `while (b_temp != null)`
with body `temp = b_temp; b_temp = a % b_temp; a = temp`.  The length and
word-bound facts ride along because the termination measure is the value
of `b_temp`, which `operator%` strictly decreases while it is non-zero. -/
def gcd (n : Nat) (hn : 0 < n) (hnw : 32 * n < 2 ^ 32) (a b : List Nat)
    (ha : a.length = n) (hb : b.length = n) (hao : WordsOk a) (hbo : WordsOk b) : List Nat :=
  if hz : neWords b (zeros n) = true then
    gcd n hn hnw b (mod a b) hb
      ((mod_shape a b (ha.trans hb.symm) hao hbo).1.trans ha) hbo
      (mod_shape a b (ha.trans hb.symm) hao hbo).2
  else a
termination_by toVal b
decreasing_by
  exact mod_lt a b (ha.trans hb.symm) hao hbo (by omega) ((neWords_zero_iff b hbo).mp
    (by rw [hb]; exact hz)) (by rw [ha]; exact hnw)

/-- Loop of `Bigint::exponentiation`: while `b_temp != null`, multiply `c`
by `a` modulo `m` when the current exponent bit is set, square `a` modulo
`m`, and halve `b_temp`.  The accumulator updates use the incoming `a`,
exactly as in the source, and the measure is the value of `b_temp`. -/
def expLoop (n : Nat) (hn : 0 < n) (hnw : 32 * n < 2 ^ 32) (a b m c : List Nat)
    (ha : a.length = n) (hb : b.length = n) (hm : m.length = n) (hc : c.length = n)
    (hao : WordsOk a) (hbo : WordsOk b) (hmo : WordsOk m) (hco : WordsOk c) : List Nat :=
  if hz : neWords b (zeros n) = true then
    expLoop n hn hnw (mod (mul a a) m) (shr b 1) m
      (if is_odd b then mod (mul c a) m else c)
      (by rw [(mod_shape (mul a a) m (by rw [mul_length, ha, hm]) (mul_ok a a) hmo).1,
        mul_length, ha])
      (by rw [shr_length, hb])
      hm
      (by split
          · rw [(mod_shape (mul c a) m (by rw [mul_length, hc, hm]) (mul_ok c a) hmo).1,
              mul_length, hc]
          · exact hc)
      (mod_shape (mul a a) m (by rw [mul_length, ha, hm]) (mul_ok a a) hmo).2
      (shr_ok b 1 hbo)
      hmo
      (by split
          · exact (mod_shape (mul c a) m (by rw [mul_length, hc, hm]) (mul_ok c a) hmo).2
          · exact hco)
  else c
termination_by toVal b
decreasing_by
  have hbz : toVal b ≠ 0 := (neWords_zero_iff b hbo).mp (by rw [hb]; exact hz)
  rw [shr_val b 1 hbo, pow_one]
  exact Nat.div_lt_self (Nat.pos_of_ne_zero hbz) one_lt_two

/-- Embedding of `Bigint::exponentiation`: the accumulator starts at
`Bigint c(1)`. -/
def exponentiation (n : Nat) (hn : 0 < n) (hnw : 32 * n < 2 ^ 32) (a b m : List Nat)
    (ha : a.length = n) (hb : b.length = n) (hm : m.length = n)
    (hao : WordsOk a) (hbo : WordsOk b) (hmo : WordsOk m) : List Nat :=
  expLoop n hn hnw a b m (ofULL n 1) ha hb hm (ofULL_length n 1) hao hbo hmo (ofULL_ok n 1)

/-- Loop of `Bigint::inverse`: `while (a > 1)` with the extended-Euclid
update of `(a, b_temp)` and the sign-magnitude Bézout coefficients
`(x0, x0_sign)` and `(x1, x1_sign)`.  `q * x0` is computed once (`qx0`),
and when the signs agree the new magnitude is `x1 - qx0` or `qx0 - x1`
according to the buggy `operator>` test, exactly as in the source. -/
def inverseLoop (n : Nat) (hn : 0 < n) (hnw : 32 * n < 2 ^ 32) (a b x0 x1 : List Nat)
    (x0s x1s : Bool) (ha : a.length = n) (hb : b.length = n)
    (hao : WordsOk a) (hbo : WordsOk b) : List Nat × Bool :=
  if hz : gt a (ofULL n 1) = true then
    let q := div a b
    let qx0 := mul q x0
    inverseLoop n hn hnw b (mod a b)
      (if x0s != x1s then add x1 qx0
        else if gt x1 qx0 then sub x1 qx0 else sub qx0 x1)
      x0
      (if x0s != x1s then x1s else if gt x1 qx0 then x1s else !x0s)
      x0s
      hb ((mod_shape a b (ha.trans hb.symm) hao hbo).1.trans ha) hbo
      (mod_shape a b (ha.trans hb.symm) hao hbo).2
  else (x1, x1s)
termination_by if toVal a ≤ 1 then 0 else if toVal b = 0 then 1 else 2 * toVal b + 2
decreasing_by
  have h1 : 1 < toVal a := by
    have hgs := gt_sound a (ofULL n 1) (by rw [ofULL_length, ha]) hao (ofULL_ok n 1) hz
    rwa [ofULL_one_val n hn] at hgs
  rw [if_neg (show ¬toVal a ≤ 1 from by omega)]
  by_cases hb0 : toVal b = 0
  · rw [if_pos hb0]
    rw [if_pos (show toVal b ≤ 1 from by omega)]
    omega
  · rw [if_neg hb0]
    have hmlt : toVal (mod a b) < toVal b :=
      mod_lt a b (ha.trans hb.symm) hao hbo (by omega) hb0 (by rw [ha]; exact hnw)
    by_cases hble : toVal b ≤ 1
    · rw [if_pos hble]
      omega
    · rw [if_neg hble]
      by_cases hm0 : toVal (mod a b) = 0
      · rw [if_pos hm0]
        omega
      · rw [if_neg hm0]
        omega

/-- Embedding of `Bigint::inverse`: run the extended-Euclid loop from
`x0 = 0` (plus), `x1 = 1` (plus), and fix the sign of the result against
the modulus `b` at the end (`x1_sign ? b - x1 : x1`). -/
def inverse (n : Nat) (hn : 0 < n) (hnw : 32 * n < 2 ^ 32) (a b : List Nat)
    (ha : a.length = n) (hb : b.length = n) (hao : WordsOk a) (hbo : WordsOk b) : List Nat :=
  let r := inverseLoop n hn hnw a b (zeros n) (ofULL n 1) false false ha hb hao hbo
  if r.2 then sub b r.1 else r.1

/-- Trial loop of `Bigint::prime_check`: `count` Fermat rounds remain, `a`
is the candidate storage mutated by `rng`, and `ctr` the position in the
random stream.  A round draws `num_bits (high)` bits worth of words into
`a`, rejects unless `gcd(*this, a) == 1`, rejects unless
`a.exponentiation(high, *this) == 1`, and recurses. -/
def primeLoop (n : Nat) (hn : 0 < n) (hnw : 32 * n < 2 ^ 32) (x high : List Nat)
    (hx : x.length = n) (hh : high.length = n) (hxo : WordsOk x) (hho : WordsOk high)
    (σ : Nat → Nat) : Nat → (a : List Nat) → Nat → a.length = n → WordsOk a → Bool
  | 0, _, _, _, _ => true
  | count + 1, a, ctr, hal, hao =>
    let r := rng a σ ctr (num_bits high)
    if neWords (gcd n hn hnw x r.1 hx ((rng_length a σ ctr (num_bits high)).trans hal) hxo
        (rng_ok a σ ctr (num_bits high) hao)) (ofULL n 1) then false
    else if neWords (exponentiation n hn hnw r.1 high x
        ((rng_length a σ ctr (num_bits high)).trans hal) hh hx
        (rng_ok a σ ctr (num_bits high) hao) hho hxo) (ofULL n 1) then false
    else primeLoop n hn hnw x high hx hh hxo hho σ count r.1 r.2
      ((rng_length a σ ctr (num_bits high)).trans hal) (rng_ok a σ ctr (num_bits high) hao)

/-- Embedding of `Bigint::prime_check`: `high = *this - 1`, one hundred
Fermat rounds starting from the null candidate `a` and the caller's
position `ctr` in the random stream `σ`. -/
def prime_check (n : Nat) (hn : 0 < n) (hnw : 32 * n < 2 ^ 32) (x : List Nat)
    (hx : x.length = n) (hxo : WordsOk x) (σ : Nat → Nat) (ctr : Nat) : Bool :=
  primeLoop n hn hnw x (sub x (ofULL n 1)) hx
    ((sub_length x (ofULL n 1) (by rw [ofULL_length, hx])).trans hx) hxo
    (sub_ok x (ofULL n 1)) σ 100 (zeros n) ctr (zeros_length n) (zeros_ok n)

/-- C1: the claim states that for `b ≠ 0` and `a < b` the quotient `a / b`
is zero and the remainder `a % b` is `a`.  The remainder is right, but the
fast path of `operator/` executes `return *this`, handing back the
dividend: at 64-bit width with `a = 3`, `b = 5` the quotient evaluates
to 3, not 0. -/
theorem C1_div_fast_path_returns_dividend :
    toVal (ofULL 2 3) < toVal (ofULL 2 5) ∧ toVal (ofULL 2 5) ≠ 0 ∧
    toVal (div (ofULL 2 3) (ofULL 2 5)) = 3 ∧
    toVal (mod (ofULL 2 3) (ofULL 2 5)) = 3 := by decide

/-- C2: the claim states `(a / b) * b + (a % b) == a` modulo `2^bits` for
every `b ≠ 0`.  With `a = 3`, `b = 5` at 64-bit width the buggy quotient 3
makes the left side `3 * 5 + 3 = 18`, which differs from `a = 3`. -/
theorem C2_division_identity_fails :
    toVal (ofULL 2 5) ≠ 0 ∧
    toVal (add (mul (div (ofULL 2 3) (ofULL 2 5)) (ofULL 2 5))
      (mod (ofULL 2 3) (ofULL 2 5))) = 18 ∧
    toVal (ofULL 2 3) = 3 := by decide

/-- C3: the claim states that dividing or reducing modulo zero raises an
explicit `DivisionByZero` error.  No such error exists anywhere in the
source — `operator/` and `operator%` are total and silently run the
shift-and-subtract loop on the degenerate alignment: at 64-bit width
`5 / 0` evaluates to 15, `0 / 0` to 1, and `5 % 0` to 5. -/
theorem C3_division_by_zero_is_silent :
    toVal (div (ofULL 2 5) (ofULL 2 0)) = 15 ∧
    toVal (div (ofULL 2 0) (ofULL 2 0)) = 1 ∧
    toVal (mod (ofULL 2 5) (ofULL 2 0)) = 5 := by decide

/-- C5: the claim states that rendering the value parsed from a
valid-width hexadecimal string gives the string back with leading zeros
stripped.  A 9-digit string fits 64 bits but takes the single-`%X` branch
of the constructor (`number_of_runs = 9 / 8 = 1`), whose conversion is
truncated to the low 32 bits: `"123456789"` parses to storage
`[0x23456789, 0]` and renders as `"23456789"`, losing the leading `1`
(the character lists are ASCII codes). -/
theorem C5_hex_roundtrip_drops_ninth_digit :
    fromHex 2 [49, 50, 51, 52, 53, 54, 55, 56, 57] = some [591751049, 0] ∧
    render [591751049, 0] = [50, 51, 52, 53, 54, 55, 56, 57] ∧
    [50, 51, 52, 53, 54, 55, 56, 57] ≠ [49, 50, 51, 52, 53, 54, 55, 56, 57] := by decide

/-- C6: the claim states that for `bits < 64` the from-integer constructor
writes only the word indices that exist.  The source executes both
`storage[0] = x` and `storage[1] = x >> 32` unconditionally, so the store
to word index 1 happens for every input, while a `bits = 32` object has
only word index 0 (`1 < 32 / 32` fails): the second store is out of
range, not unreachable. -/
theorem C6_ctor_always_stores_word_one (x : Nat) :
    (ofULLStores x).map Prod.fst = [0, 1] ∧ ¬ (1 < 32 / 32) :=
  ⟨rfl, by decide⟩

/-- C10: the claim states that comparison stops at the first
most-significant-first word position where at least one operand word is
non-zero, so that distinct values agreeing there compare neither below
nor above each other: at 64-bit width `a = 2^32 + 5 = [5, 1]` and
`b = 2^32 + 7 = [7, 1]` differ in value, yet both `a < b` and `a > b`
are false. -/
theorem C10_comparisons_not_total_order :
    lt [5, 1] [7, 1] = false ∧ gt [5, 1] [7, 1] = false ∧
    toVal [5, 1] < toVal [7, 1] := by decide

/-- C9: for every pair of same-width values, `a + b - b == a` and
`a - b + b == a` with the wraparound semantics of `operator+` and
`operator-` modulo `2^bits`: both cancellation identities hold at the
storage level. -/
theorem C9_add_sub_cancel (x y : List Nat) (hlen : x.length = y.length)
    (hx : WordsOk x) (hy : WordsOk y) :
    sub (add x y) y = x ∧ add (sub x y) y = x := by
  have hal : (add x y).length = y.length := by rw [add_length x y hlen, hlen]
  have hsl : (sub x y).length = y.length := by rw [sub_length x y hlen, hlen]
  have hxv : toVal x < wordB ^ x.length := toVal_lt x hx
  have hyv : toVal y < wordB ^ x.length := by
    rw [hlen]
    exact toVal_lt y hy
  constructor
  · apply toVal_inj _ x (sub_ok _ _) hx
      (by rw [sub_length _ _ hal, add_length x y hlen])
    rw [sub_val _ _ hal (add_ok x y) hy, add_val x y hlen, add_length x y hlen,
      Nat.add_sub_assoc (le_of_lt hyv) ((toVal x + toVal y) % wordB ^ x.length),
      Nat.mod_add_mod,
      show toVal x + toVal y + (wordB ^ x.length - toVal y) =
        toVal x + wordB ^ x.length from by
          rw [Nat.add_assoc, Nat.add_sub_cancel' (le_of_lt hyv)],
      Nat.add_mod_right, Nat.mod_eq_of_lt hxv]
  · apply toVal_inj _ x (add_ok _ _) hx
      (by rw [add_length _ _ hsl, sub_length x y hlen])
    rw [add_val _ _ hsl, sub_val x y hlen hx hy, sub_length x y hlen,
      Nat.mod_add_mod,
      show toVal x + wordB ^ x.length - toVal y + toVal y =
        toVal x + wordB ^ x.length from
          Nat.sub_add_cancel (le_trans (le_of_lt hyv) (Nat.le_add_left _ _)),
      Nat.add_mod_right, Nat.mod_eq_of_lt hxv]

/-- C9 witness: the cancellation identities hold at the concrete 64-bit
inputs `x = [5, 1]`, `y = [7, 3]`. -/
theorem C9_add_sub_cancel_witness :
    sub (add [5, 1] [7, 3]) [7, 3] = [5, 1] ∧ add (sub [5, 1] [7, 3]) [7, 3] = [5, 1] :=
  C9_add_sub_cancel [5, 1] [7, 3] rfl (by decide) (by decide)

/-- C8: for every value and shift count, `a << s >> s == a` when the top
`s` bits of `a` are zero (`toVal a < 2 ^ (bits - s)`), and a shift by
`bits` or more in either direction gives the zero value. -/
theorem C8_shift_roundtrip (x : List Nat) (s : Nat) (hx : WordsOk x) :
    (toVal x < 2 ^ (32 * x.length - s) → shr (shl x s) s = x) ∧
    (32 * x.length ≤ s → shl x s = zeros x.length ∧ shr x s = zeros x.length) := by
  constructor
  · intro hxs
    apply toVal_inj _ x (shr_ok _ _ (shl_ok x s hx)) hx
      (by rw [shr_length, shl_length])
    rw [shr_val _ s (shl_ok x s hx), shl_val x s hx]
    rcases le_or_lt s (32 * x.length) with hs | hs
    · rw [Nat.mod_eq_of_lt, Nat.mul_div_cancel _ (Nat.pos_pow_of_pos _ (by norm_num))]
      rw [wordB_pow_mul]
      calc toVal x * 2 ^ s < 2 ^ (32 * x.length - s) * 2 ^ s :=
            (Nat.mul_lt_mul_right (Nat.pos_pow_of_pos _ (by norm_num))).mpr hxs
      _ = 2 ^ (32 * x.length) := by
          rw [← pow_add, Nat.sub_add_cancel hs]
    · have hx0 : toVal x = 0 := by
        rw [show 32 * x.length - s = 0 from by omega, pow_zero] at hxs
        omega
      rw [hx0, Nat.zero_mul, Nat.zero_mod, Nat.zero_div]
  · intro hs
    constructor
    · simp only [shl]
      rw [if_pos hs]
    · simp only [shr]
      rw [if_pos hs]

/-- C8 witness: at the 64-bit input `[5, 1]` (value `2^32 + 5`), shifting
left then right by 3 returns the input, and shifting by 64 in either
direction gives the zero value. -/
theorem C8_shift_roundtrip_witness :
    shr (shl [5, 1] 3) 3 = [5, 1] ∧
    (shl [5, 1] 64 = zeros 2 ∧ shr [5, 1] 64 = zeros 2) :=
  ⟨(C8_shift_roundtrip [5, 1] 3 (by decide)).1 (by decide),
    (C8_shift_roundtrip [5, 1] 64 (by decide)).2 (by decide)⟩

theorem primeLoop_gcd_reject (n : Nat) (hn : 0 < n) (hnw : 32 * n < 2 ^ 32)
    (x high : List Nat) (hx : x.length = n) (hh : high.length = n)
    (hxo : WordsOk x) (hho : WordsOk high) (σ : Nat → Nat) (count : Nat)
    (a : List Nat) (ctr : Nat) (hal : a.length = n) (hao : WordsOk a)
    (hr : neWords (gcd n hn hnw x (rng a σ ctr (num_bits high)).1 hx
      ((rng_length a σ ctr (num_bits high)).trans hal) hxo
      (rng_ok a σ ctr (num_bits high) hao)) (ofULL n 1) = true) :
    primeLoop n hn hnw x high hx hh hxo hho σ (count + 1) a ctr hal hao = false := by
  simp only [primeLoop]
  rw [hr]
  rfl

/-- C4: the claim states that `prime_check()` returns true for the small
prime 97 on every run, whatever the random source produces.  It never
does: `high = 96` has 7 significant bits, `rng(7)` writes `7 / 32 = 0`
words, so the candidate `a` keeps its null value on every trial; the
first round then computes `gcd(97, 0) = 97 ≠ 1` and rejects, so
`prime_check` on 97 returns false for every random stream `σ` and every
stream position `ctr`. -/
theorem C4_prime_check_97_always_false (σ : Nat → Nat) (ctr : Nat) :
    prime_check 2 (by norm_num) (by norm_num) (ofULL 2 97) (ofULL_length 2 97)
      (ofULL_ok 2 97) σ ctr = false := by
  have key : ∀ (p1 : 0 < 2) (p2 : 32 * 2 < 2 ^ 32) (r : List Nat)
      (q1 : (ofULL 2 97).length = 2) (h1 : r.length = 2)
      (q2 : WordsOk (ofULL 2 97)) (h2 : WordsOk r),
      r = zeros 2 →
      neWords (gcd 2 p1 p2 (ofULL 2 97) r q1 h1 q2 h2) (ofULL 2 1) = true := by
    intro p1 p2 r q1 h1 q2 h2 hr
    subst hr
    rw [gcd]
    rw [dif_neg (show ¬ (neWords (zeros 2) (zeros 2) = true) from by decide)]
    decide
  simp only [prime_check]
  rw [show (100 : Nat) = 99 + 1 from rfl]
  exact primeLoop_gcd_reject 2 _ _ (ofULL 2 97) (sub (ofULL 2 97) (ofULL 2 1)) _ _ _ _
    σ 99 (zeros 2) ctr (zeros_length 2) (zeros_ok 2) (key _ _ _ _ _ _ _ rfl)

/-- Signed value of a sign-magnitude pair, as `inverse` keeps its Bézout
coefficients: the `x_sign` flag true means the stored magnitude counts
negatively. -/
def sv (x : List Nat) : Bool → Int
  | false => (toVal x : Int)
  | true => -(toVal x : Int)

theorem toVal_zero_words : ∀ (x : List Nat), toVal x = 0 → ∀ w ∈ x, w = 0 := by
  intro x
  induction x with
  | nil => intro _ w hw; simp at hw
  | cons v vs ih =>
    intro h w hw
    rw [toVal_cons] at h
    have hv : v = 0 ∧ toVal vs = 0 := by
      have hB : 0 < wordB := wordB_pos
      constructor
      · omega
      · rcases Nat.eq_zero_of_add_eq_zero_left h with h2
        rcases Nat.mul_eq_zero.mp h2 with h3 | h3
        · omega
        · exact h3
    rcases List.mem_cons.mp hw with rfl | hmem
    · exact hv.1
    · exact ih hv.2 w hmem

theorem gtScan_left_zero : ∀ (x y : List Nat), (∀ w ∈ x, w = 0) → gtScan x y = false := by
  intro x
  induction x with
  | nil => intro y _; cases y <;> rfl
  | cons v vs ih =>
    intro y hx
    cases y with
    | nil => rfl
    | cons u us =>
      have hv : v = 0 := hx v (List.mem_cons_self v vs)
      show (if v ≠ 0 ∨ u ≠ 0 then decide (v > u) else gtScan vs us) = false
      subst hv
      by_cases hu : u = 0
      · subst hu
        rw [if_neg (by simp)]
        exact ih us (fun w hw => hx w (List.mem_cons_of_mem _ hw))
      · rw [if_pos (Or.inr hu)]
        simp

theorem gt_left_zero (x y : List Nat) (hx : toVal x = 0) : gt x y = false := by
  rw [gt]
  exact gtScan_left_zero x.reverse y.reverse
    (fun w hw => toVal_zero_words x hx w (List.mem_reverse.mp hw))

theorem gtScan_right_zero : ∀ (x y : List Nat), x.length = y.length →
    (∀ w ∈ y, w = 0) → valBE x ≠ 0 → gtScan x y = true := by
  intro x
  induction x with
  | nil => intro y _ _ hx; simp [valBE] at hx
  | cons v vs ih =>
    intro y hlen hy hx
    cases y with
    | nil => simp at hlen
    | cons u us =>
      have hu : u = 0 := hy u (List.mem_cons_self u us)
      subst hu
      show (if v ≠ 0 ∨ (0 : Nat) ≠ 0 then decide (v > 0) else gtScan vs us) = true
      by_cases hv : v = 0
      · subst hv
        rw [if_neg (by simp)]
        apply ih us (by simpa using hlen) (fun w hw => hy w (List.mem_cons_of_mem _ hw))
        simp only [valBE, Nat.zero_mul, Nat.zero_add] at hx
        exact hx
      · rw [if_pos (Or.inl hv)]
        simp only [decide_eq_true_eq]
        omega

theorem gt_right_zero (x y : List Nat) (hlen : x.length = y.length)
    (hy : toVal y = 0) (hx : toVal x ≠ 0) : gt x y = true := by
  rw [gt]
  apply gtScan_right_zero x.reverse y.reverse (by simp [hlen])
    (fun w hw => toVal_zero_words y hy w (List.mem_reverse.mp hw))
  rw [valBE_reverse]
  exact hx

theorem ofULL_one (n : Nat) (hn : 0 < n) : ofULL n 1 = 1 :: zeros (n - 1) := by
  cases n with
  | zero => omega
  | succ m =>
    show (((zeros (m + 1)).set 0 (1 % 2 ^ 64 % wordB)).set 1 (1 % 2 ^ 64 / wordB % wordB)) =
      1 :: zeros m
    rw [show (1 : Nat) % 2 ^ 64 % wordB = 1 from by decide,
      show (1 : Nat) % 2 ^ 64 / wordB % wordB = 0 from by decide]
    show ((0 :: zeros m).set 0 1).set 1 0 = 1 :: zeros m
    rw [List.set_cons_zero]
    cases m with
    | zero => rfl
    | succ k => rfl

theorem gtScan_one : ∀ (k : Nat) (x : List Nat), x.length = k + 1 →
    (gtScan x (zeros k ++ [1]) = true ↔ 1 < valBE x) := by
  intro k
  induction k with
  | zero =>
    intro x hlen
    match x with
    | [w] =>
      show (if w ≠ 0 ∨ (1 : Nat) ≠ 0 then decide (w > 1) else gtScan [] []) = true ↔
        1 < valBE [w]
      rw [if_pos (Or.inr (by omega))]
      simp only [decide_eq_true_eq, valBE, List.length_nil, pow_zero, Nat.mul_one,
        Nat.add_zero]
  | succ m ih =>
    intro x hlen
    match x with
    | w :: ws =>
      show (if w ≠ 0 ∨ (0 : Nat) ≠ 0 then decide (w > 0) else gtScan ws (zeros m ++ [1]))
        = true ↔ 1 < valBE (w :: ws)
      have hws : ws.length = m + 1 := by simpa using hlen
      by_cases hw : w = 0
      · subst hw
        rw [if_neg (by simp)]
        rw [ih ws hws]
        simp [valBE]
      · rw [if_pos (Or.inl hw)]
        simp only [decide_eq_true_eq, valBE]
        constructor
        · intro _
          have h1 : 1 ≤ w := by omega
          have h2 : (1 : Nat) * wordB ^ ws.length ≤ w * wordB ^ ws.length :=
            Nat.mul_le_mul_right _ h1
          have h3 : 1 < wordB ^ ws.length := by
            rw [hws]
            calc (1 : Nat) < wordB := by norm_num [wordB]
            _ = wordB ^ 1 := (pow_one _).symm
            _ ≤ wordB ^ (m + 1) := Nat.pow_le_pow_right (by norm_num [wordB]) (by omega)
          omega
        · intro _
          omega

theorem gt_one_iff (a : List Nat) (hn : 0 < a.length) :
    (gt a (ofULL a.length 1) = true ↔ 1 < toVal a) := by
  rw [gt, ofULL_one a.length hn]
  have hr : (1 :: zeros (a.length - 1)).reverse = zeros (a.length - 1) ++ [1] := by
    rw [List.reverse_cons]
    congr 1
    simp [zeros]
  rw [hr, gtScan_one (a.length - 1) a.reverse (by simp; omega), valBE_reverse]

theorem gcd_step (u v : Nat) (h : Nat.gcd u v = 1) : Nat.gcd v (u % v) = 1 := by
  calc Nat.gcd v (u % v) = Nat.gcd (u % v) v := Nat.gcd_comm _ _
  _ = Nat.gcd v u := (Nat.gcd_rec _ _).symm
  _ = Nat.gcd u v := Nat.gcd_comm _ _
  _ = 1 := h

theorem lt_false_of_ge (x y : List Nat) (hlen : x.length = y.length) (hx : WordsOk x)
    (hy : WordsOk y) (h : toVal y ≤ toVal x) : lt x y = false := by
  cases hl : lt x y
  · rfl
  · have := lt_sound x y hlen hx hy hl
    omega

theorem inverseLoop_exit (n : Nat) (hn : 0 < n) (hnw : 32 * n < 2 ^ 32)
    (a b x0 x1 : List Nat) (x0s x1s : Bool) (ha : a.length = n) (hb : b.length = n)
    (hao : WordsOk a) (hbo : WordsOk b) (hz : gt a (ofULL n 1) = false) :
    inverseLoop n hn hnw a b x0 x1 x0s x1s ha hb hao hbo = (x1, x1s) := by
  rw [inverseLoop]
  rw [dif_neg (by rw [hz]; exact Bool.false_ne_true)]

theorem inverseLoop_succ (n : Nat) (hn : 0 < n) (hnw : 32 * n < 2 ^ 32)
    (a b x0 x1 : List Nat) (x0s x1s : Bool) (ha : a.length = n) (hb : b.length = n)
    (hao : WordsOk a) (hbo : WordsOk b) (hz : gt a (ofULL n 1) = true) :
    inverseLoop n hn hnw a b x0 x1 x0s x1s ha hb hao hbo =
    inverseLoop n hn hnw b (mod a b)
      (if x0s != x1s then add x1 (mul (div a b) x0)
        else if gt x1 (mul (div a b) x0) then sub x1 (mul (div a b) x0)
        else sub (mul (div a b) x0) x1)
      x0
      (if x0s != x1s then x1s else if gt x1 (mul (div a b) x0) then x1s else !x0s)
      x0s
      hb ((mod_shape a b (ha.trans hb.symm) hao hbo).1.trans ha) hbo
      (mod_shape a b (ha.trans hb.symm) hao hbo).2 := by
  rw [inverseLoop]
  rw [dif_pos hz]

theorem inverseLoop_spec (n : Nat) (hn : 0 < n) (hnw : 32 * n < 2 ^ 32)
    (B0 A0 : Nat) (hB0 : 2 ≤ B0) (hB0M : B0 < wordB ^ n) :
    ∀ (bv : Nat) (a b x0 x1 : List Nat) (x0s x1s : Bool)
    (ha : a.length = n) (hb : b.length = n) (hao : WordsOk a) (hbo : WordsOk b),
    toVal b = bv →
    x0.length = n → x1.length = n → WordsOk x0 → WordsOk x1 →
    toVal b < toVal a → toVal a ≤ B0 →
    Nat.gcd (toVal a) (toVal b) = 1 →
    (A0 : Int) * sv x1 x1s ≡ (toVal a : Int) [ZMOD (B0 : Int)] →
    (A0 : Int) * sv x0 x0s ≡ (toVal b : Int) [ZMOD (B0 : Int)] →
    toVal x0 * toVal a + toVal x1 * toVal b = B0 →
    toVal x1 ≤ toVal x0 →
    ((x0s ≠ x1s) ∨ (x0s = false ∧ x1s = false ∧ toVal x1 = 0)) →
    ((A0 : Int) * sv (inverseLoop n hn hnw a b x0 x1 x0s x1s ha hb hao hbo).1
        (inverseLoop n hn hnw a b x0 x1 x0s x1s ha hb hao hbo).2 ≡ 1 [ZMOD (B0 : Int)]) ∧
      toVal (inverseLoop n hn hnw a b x0 x1 x0s x1s ha hb hao hbo).1 ≤ B0 ∧
      (inverseLoop n hn hnw a b x0 x1 x0s x1s ha hb hao hbo).1.length = n ∧
      WordsOk (inverseLoop n hn hnw a b x0 x1 x0s x1s ha hb hao hbo).1 := by
  intro bv
  induction bv using Nat.strong_induction_on with
  | _ bv ih =>
  intro a b x0 x1 x0s x1s ha hb hao hbo hbv hx0l hx1l hx0o hx1o hlt hle hgcd hc1 hc0 hE hmle
    hphase
  by_cases hz : gt a (ofULL n 1) = true
  · -- loop body runs: one extended-Euclid step, then the induction hypothesis
    rw [inverseLoop_succ n hn hnw a b x0 x1 x0s x1s ha hb hao hbo hz]
    have hA2 : 1 < toVal a := by
      have hiff := gt_one_iff a (by omega)
      rw [ha] at hiff
      exact hiff.mp hz
    have hbne : toVal b ≠ 0 := by
      intro h0
      rw [h0, Nat.gcd_zero_right] at hgcd
      omega
    have hlenab : a.length = b.length := ha.trans hb.symm
    have hltf : lt a b = false := lt_false_of_ge a b hlenab hao hbo (by omega)
    have hQ : toVal (div a b) = toVal a / toVal b :=
      div_val_eq a b hlenab hao hbo (by omega) hbne (by rw [ha]; exact hnw) hltf
    have hM : toVal (mod a b) = toVal a % toVal b :=
      mod_val_eq a b hlenab hao hbo (by omega) hbne (by rw [ha]; exact hnw)
    have hdec : toVal (mod a b) < bv := by
      rw [hM, ← hbv]
      exact Nat.mod_lt _ (by omega)
    have hQ1 : 1 ≤ toVal a / toVal b := (Nat.one_le_div_iff (by omega)).mpr (by omega)
    have hdml : toVal a / toVal b * toVal b ≤ toVal a := Nat.div_mul_le_self _ _
    have hql : (div a b).length = n := (div_shape a b hlenab hao hbo).1.trans ha
    have hqo : WordsOk (div a b) := (div_shape a b hlenab hao hbo).2
    have hqxl : (mul (div a b) x0).length = n := by rw [mul_length, hql]
    have hqxo : WordsOk (mul (div a b) x0) := mul_ok (div a b) x0
    have hx0a : toVal x0 * toVal a ≤ B0 := by omega
    have hqx : toVal (mul (div a b) x0) = toVal a / toVal b * toVal x0 := by
      rw [mul_val _ _ (by rw [hql, hx0l]), hQ, hql]
      apply Nat.mod_eq_of_lt
      calc toVal a / toVal b * toVal x0
          ≤ toVal a / toVal b * toVal x0 * toVal b :=
            Nat.le_mul_of_pos_right _ (by omega)
        _ = toVal x0 * (toVal a / toVal b * toVal b) := by ring
        _ ≤ toVal x0 * toVal a := Nat.mul_le_mul_left _ hdml
        _ ≤ B0 := hx0a
        _ < wordB ^ n := hB0M
    have hnewb : toVal x0 * (toVal b * (toVal a / toVal b) + toVal a % toVal b) =
        toVal x0 * toVal a := by
      rw [Nat.div_add_mod]
    have hsum_le : toVal x1 + toVal a / toVal b * toVal x0 ≤ B0 := by
      have h2 : (toVal x1 + toVal a / toVal b * toVal x0) * toVal b ≤ B0 := by
        calc (toVal x1 + toVal a / toVal b * toVal x0) * toVal b
            = toVal x1 * toVal b + toVal x0 * (toVal a / toVal b * toVal b) := by ring
          _ ≤ toVal x1 * toVal b + toVal x0 * toVal a := by
              have h3 := Nat.mul_le_mul_left (toVal x0) hdml
              omega
          _ = B0 := by omega
      calc toVal x1 + toVal a / toVal b * toVal x0
          ≤ (toVal x1 + toVal a / toVal b * toVal x0) * toVal b :=
            Nat.le_mul_of_pos_right _ (by omega)
        _ ≤ B0 := h2
    have hcast : ((toVal a % toVal b : Nat) : Int) =
        (toVal a : Int) - ((toVal a / toVal b : Nat) : Int) * (toVal b : Int) := by
      have h2 : (toVal b : Int) * ((toVal a / toVal b : Nat) : Int) +
          ((toVal a % toVal b : Nat) : Int) = (toVal a : Int) := by
        exact_mod_cast Nat.div_add_mod (toVal a) (toVal b)
      linarith
    have main : ∀ (x0n : List Nat) (s0n : Bool), x0n.length = n → WordsOk x0n →
        toVal x0n = toVal x1 + toVal a / toVal b * toVal x0 →
        sv x0n s0n = sv x1 x1s - ((toVal a / toVal b : Nat) : Int) * sv x0 x0s →
        s0n ≠ x0s →
        ((A0 : Int) * sv (inverseLoop n hn hnw b (mod a b) x0n x0 s0n x0s hb
            ((mod_shape a b (ha.trans hb.symm) hao hbo).1.trans ha) hbo
            (mod_shape a b (ha.trans hb.symm) hao hbo).2).1
          (inverseLoop n hn hnw b (mod a b) x0n x0 s0n x0s hb
            ((mod_shape a b (ha.trans hb.symm) hao hbo).1.trans ha) hbo
            (mod_shape a b (ha.trans hb.symm) hao hbo).2).2 ≡ 1 [ZMOD (B0 : Int)]) ∧
        toVal (inverseLoop n hn hnw b (mod a b) x0n x0 s0n x0s hb
            ((mod_shape a b (ha.trans hb.symm) hao hbo).1.trans ha) hbo
            (mod_shape a b (ha.trans hb.symm) hao hbo).2).1 ≤ B0 ∧
        (inverseLoop n hn hnw b (mod a b) x0n x0 s0n x0s hb
            ((mod_shape a b (ha.trans hb.symm) hao hbo).1.trans ha) hbo
            (mod_shape a b (ha.trans hb.symm) hao hbo).2).1.length = n ∧
        WordsOk (inverseLoop n hn hnw b (mod a b) x0n x0 s0n x0s hb
            ((mod_shape a b (ha.trans hb.symm) hao hbo).1.trans ha) hbo
            (mod_shape a b (ha.trans hb.symm) hao hbo).2).1 := by
      intro x0n s0n hl' ho' hv' hsv' hsne
      have hc0' : (A0 : Int) * sv x0n s0n ≡ (toVal (mod a b) : Int) [ZMOD (B0 : Int)] := by
        rw [hsv', hM, hcast,
          show (A0 : Int) * (sv x1 x1s - ((toVal a / toVal b : Nat) : Int) * sv x0 x0s) =
            A0 * sv x1 x1s - ((toVal a / toVal b : Nat) : Int) * (A0 * sv x0 x0s) from by
              ring]
        exact Int.ModEq.sub hc1 (Int.ModEq.mul_left _ hc0)
      have hE' : toVal x0n * toVal b + toVal x0 * toVal (mod a b) = B0 := by
        rw [hv', hM]
        calc (toVal x1 + toVal a / toVal b * toVal x0) * toVal b +
            toVal x0 * (toVal a % toVal b)
            = toVal x1 * toVal b +
              toVal x0 * (toVal b * (toVal a / toVal b) + toVal a % toVal b) := by ring
          _ = toVal x1 * toVal b + toVal x0 * toVal a := by rw [hnewb]
          _ = B0 := by omega
      have hmle' : toVal x0 ≤ toVal x0n := by
        rw [hv']
        calc toVal x0 = 1 * toVal x0 := (Nat.one_mul _).symm
          _ ≤ toVal a / toVal b * toVal x0 := Nat.mul_le_mul_right _ hQ1
          _ ≤ toVal x1 + toVal a / toVal b * toVal x0 := Nat.le_add_left _ _
      exact ih (toVal (mod a b)) hdec b (mod a b) x0n x0 s0n x0s hb _ hbo _ rfl hl' hx0l
        ho' hx0o (by rw [hM]; exact Nat.mod_lt _ (by omega)) (by omega)
        (by rw [hM]; exact gcd_step _ _ hgcd) hc0 hc0' hE' hmle' (Or.inl hsne)
    rcases hphase with hps | ⟨hx0f, hx1f, hx1z⟩
    · -- the signs differ: the `x1 + qx0` branch runs
      have hbb : (x0s != x1s) = true := by
        rw [bne_iff_ne]
        exact hps
      rw [if_pos hbb, if_pos hbb]
      apply main _ _ (by rw [add_length _ _ (by rw [hx1l, hqxl]), hx1l]) (add_ok _ _)
      · rw [add_val _ _ (by rw [hx1l, hqxl]), hqx, hx1l]
        exact Nat.mod_eq_of_lt (lt_of_le_of_lt hsum_le hB0M)
      · have hxv : toVal (add x1 (mul (div a b) x0)) =
            toVal x1 + toVal a / toVal b * toVal x0 := by
          rw [add_val _ _ (by rw [hx1l, hqxl]), hqx, hx1l]
          exact Nat.mod_eq_of_lt (lt_of_le_of_lt hsum_le hB0M)
        cases hx1v : x1s
        · have hx0v : x0s = true := by
            cases x0s
            · rw [hx1v] at hps; exact absurd rfl hps
            · rfl
          rw [hx0v]
          show (toVal (add x1 (mul (div a b) x0)) : Int) =
            (toVal x1 : Int) - ((toVal a / toVal b : Nat) : Int) * (-(toVal x0 : Int))
          rw [hxv]
          push_cast
          ring
        · have hx0v : x0s = false := by
            cases x0s
            · rfl
            · rw [hx1v] at hps; exact absurd rfl hps
          rw [hx0v]
          show -(toVal (add x1 (mul (div a b) x0)) : Int) =
            -(toVal x1 : Int) - ((toVal a / toVal b : Nat) : Int) * (toVal x0 : Int)
          rw [hxv]
          push_cast
          ring
      · exact fun h => hps h.symm
    · -- the initial phase: `x0` positive, `x1` the zero coefficient
      subst hx0f
      subst hx1f
      have hbb : (false != false) = false := by rfl
      rw [hbb]
      rw [if_neg Bool.false_ne_true, if_neg Bool.false_ne_true]
      have hx0pos : 1 ≤ toVal x0 := by
        rcases Nat.eq_zero_or_pos (toVal x0) with h0 | h1
        · rw [h0, hx1z] at hE
          simp at hE
          omega
        · exact h1
      have hgtf : gt x1 (mul (div a b) x0) = false := gt_left_zero x1 _ hx1z
      rw [hgtf]
      rw [if_neg Bool.false_ne_true, if_neg Bool.false_ne_true]
      have hxv : toVal (sub (mul (div a b) x0) x1) =
          toVal a / toVal b * toVal x0 := by
        rw [sub_val_ge _ _ (by rw [hqxl, hx1l]) hqxo hx1o (by rw [hx1z]; exact Nat.zero_le _),
          hqx, hx1z, Nat.sub_zero]
      apply main _ _ (by rw [sub_length _ _ (by rw [hqxl, hx1l]), hqxl]) (sub_ok _ _)
      · rw [hxv, hx1z, Nat.zero_add]
      · show -(toVal (sub (mul (div a b) x0) x1) : Int) =
          (toVal x1 : Int) - ((toVal a / toVal b : Nat) : Int) * (toVal x0 : Int)
        rw [hxv, hx1z]
        push_cast
        ring
      · exact by decide
  · -- the guard fails: the loop returns the current coefficient pair
    have hzf : gt a (ofULL n 1) = false := by
      cases hg : gt a (ofULL n 1)
      · rfl
      · exact absurd hg hz
    rw [inverseLoop_exit n hn hnw a b x0 x1 x0s x1s ha hb hao hbo hzf]
    have ha1 : toVal a ≤ 1 := by
      have hiff := gt_one_iff a (by omega)
      rw [ha] at hiff
      rcases le_or_lt (toVal a) 1 with h | h
      · exact h
      · rw [hiff.mpr h] at hzf
        exact absurd hzf (by simp)
    have ha1' : toVal a = 1 := by omega
    have hb0' : toVal b = 0 := by omega
    refine ⟨?_, ?_, hx1l, hx1o⟩
    · show (A0 : Int) * sv x1 x1s ≡ 1 [ZMOD (B0 : Int)]
      rw [ha1'] at hc1
      exact_mod_cast hc1
    · show toVal x1 ≤ B0
      rw [ha1', hb0', Nat.mul_one, Nat.mul_zero, Nat.add_zero] at hE
      omega

/-- C7 counterexample: at `a = b = 1` (64-bit width) the claim's
hypothesis `gcd(a, b) = 1` holds, yet `(a * inverse(a, b)) % b` evaluates
to 0, not 1 — no residue is 1 modulo 1, so the claim as stated is
false. -/
theorem C7_counterexample_unit_modulus :
    Nat.gcd (toVal (ofULL 2 1)) (toVal (ofULL 2 1)) = 1 ∧
    toVal (mod (mul (ofULL 2 1) (inverse 2 (by norm_num) (by norm_num) (ofULL 2 1)
      (ofULL 2 1) (ofULL_length 2 1) (ofULL_length 2 1) (ofULL_ok 2 1) (ofULL_ok 2 1)))
      (ofULL 2 1)) = 0 := by
  have hz : gt (ofULL 2 1) (ofULL 2 1) = false := by decide
  have hloop := inverseLoop_exit 2 (by norm_num) (by norm_num) (ofULL 2 1) (ofULL 2 1)
    (zeros 2) (ofULL 2 1) false false (ofULL_length 2 1) (ofULL_length 2 1)
    (ofULL_ok 2 1) (ofULL_ok 2 1) hz
  have hinv : inverse 2 (by norm_num) (by norm_num) (ofULL 2 1) (ofULL 2 1)
      (ofULL_length 2 1) (ofULL_length 2 1) (ofULL_ok 2 1) (ofULL_ok 2 1) = ofULL 2 1 := by
    simp only [inverse]
    rw [hloop]
    rfl
  constructor
  · decide
  · rw [hinv]
    decide

/-- C7: the claim states that `inverse(a, b)` is a modular inverse of `a`
modulo `b` whenever `gcd(a, b) = 1`.  That fails at `a = b = 1` (see the
counterexample); the corrected statement adds `2 ≤ b`: for all same-width
inputs with coprime values and modulus at least 2, the result is a
reduced residue (`< b`) and `(a * inverse(a, b)) % b = 1`, the product
and remainder taken over the (exact) values. -/
theorem C7_inverse_amended (n : Nat) (hn : 0 < n) (hnw : 32 * n < 2 ^ 32)
    (a b : List Nat) (ha : a.length = n) (hb : b.length = n)
    (hao : WordsOk a) (hbo : WordsOk b)
    (hg : Nat.gcd (toVal a) (toVal b) = 1) (hb2 : 2 ≤ toVal b) :
    toVal (inverse n hn hnw a b ha hb hao hbo) < toVal b ∧
    (toVal a * toVal (inverse n hn hnw a b ha hb hao hbo)) % toVal b = 1 := by
  have hB0M : toVal b < wordB ^ n := by
    rw [← hb]
    exact toVal_lt b hbo
  have hane : toVal a ≠ 0 := by
    intro h0
    rw [h0, Nat.gcd_zero_left] at hg
    omega
  have final : ∀ (V : Nat), ((toVal a : Int) * V ≡ 1 [ZMOD (toVal b : Int)]) →
      V ≤ toVal b → V < toVal b ∧ (toVal a * V) % toVal b = 1 := by
    intro V hcong hVle
    have hVne : V ≠ toVal b := by
      intro hEq
      have hd : (toVal b : Int) ∣ 1 - (toVal a : Int) * V := hcong.dvd
      have hd3 : (toVal b : Int) ∣ 1 := by
        rw [show (1 : Int) = (1 - (toVal a : Int) * V) + (toVal a : Int) * V from by ring]
        exact dvd_add hd (hEq ▸ dvd_mul_left _ _)
      have hle1 : (toVal b : Int) ≤ 1 := Int.le_of_dvd (by norm_num) hd3
      have hge2 : (2 : Int) ≤ (toVal b : Int) := by exact_mod_cast hb2
      omega
    have hcong' : ((toVal a * V : Nat) : Int) ≡ ((1 : Nat) : Int)
        [ZMOD ((toVal b : Nat) : Int)] := by
      push_cast
      exact hcong
    have hN : (toVal a * V) % toVal b = 1 % toVal b := Int.natCast_modEq_iff.mp hcong'
    rw [show (1 : Nat) % toVal b = 1 from Nat.mod_eq_of_lt (by omega)] at hN
    exact ⟨lt_of_le_of_ne hVle hVne, hN⟩
  simp only [inverse]
  set R := inverseLoop n hn hnw a b (zeros n) (ofULL n 1) false false ha hb hao hbo
    with hRdef
  have discharge : ((toVal a : Int) * sv R.1 R.2 ≡ 1 [ZMOD (toVal b : Int)]) →
      toVal R.1 ≤ toVal b → R.1.length = n → WordsOk R.1 →
      toVal (if R.2 = true then sub b R.1 else R.1) < toVal b ∧
      (toVal a * toVal (if R.2 = true then sub b R.1 else R.1)) % toVal b = 1 := by
    intro hcong hleR hlenR hokR
    cases hR2 : R.2
    · rw [if_neg Bool.false_ne_true]
      rw [hR2] at hcong
      simp only [sv] at hcong
      exact final (toVal R.1) hcong hleR
    · rw [if_pos rfl]
      rw [hR2] at hcong
      simp only [sv] at hcong
      have hsubv : toVal (sub b R.1) = toVal b - toVal R.1 :=
        sub_val_ge b R.1 (by rw [hb, hlenR]) hbo hokR hleR
      have hc2 : (toVal a : Int) * ((toVal b - toVal R.1 : Nat) : Int) ≡ 1
          [ZMOD (toVal b : Int)] := by
        rw [Nat.cast_sub hleR,
          show (toVal a : Int) * ((toVal b : Int) - (toVal R.1 : Int)) =
            (toVal a : Int) * (toVal b : Int) + (toVal a : Int) * (-(toVal R.1 : Int))
            from by ring]
        have h0 : (toVal a : Int) * (toVal b : Int) ≡ 0 [ZMOD (toVal b : Int)] :=
          (dvd_mul_left _ _).modEq_zero_int
        have hsum := h0.add hcong
        simpa using hsum
      rw [hsubv]
      exact final (toVal b - toVal R.1) hc2 (Nat.sub_le _ _)
  rcases eq_or_lt_of_le (show 1 ≤ toVal a from by omega) with ha1 | ha2
  · -- `a = 1`: the loop never runs and the answer is the initial `x1 = 1`
    have hz : gt a (ofULL n 1) = false := by
      cases hg2 : gt a (ofULL n 1)
      · rfl
      · have hiff := gt_one_iff a (by omega)
        rw [ha] at hiff
        have := hiff.mp hg2
        omega
    rw [inverseLoop_exit n hn hnw a b (zeros n) (ofULL n 1) false false ha hb hao hbo hz]
      at hRdef
    apply discharge
    · rw [hRdef]
      show (toVal a : Int) * sv (ofULL n 1) false ≡ 1 [ZMOD (toVal b : Int)]
      have h1 : sv (ofULL n 1) false = 1 := by
        simp [sv, ofULL_one_val n hn]
      rw [h1, ← ha1]
      norm_num
    · rw [hRdef]
      show toVal (ofULL n 1) ≤ toVal b
      rw [ofULL_one_val n hn]
      omega
    · rw [hRdef]
      exact ofULL_length n 1
    · rw [hRdef]
      exact ofULL_ok n 1
  · -- `a ≥ 2`: the first iteration installs the swapped state, then the
    -- loop invariant carries through
    have hz : gt a (ofULL n 1) = true := by
      have hiff := gt_one_iff a (by omega)
      rw [ha] at hiff
      exact hiff.mpr ha2
    rw [inverseLoop_succ n hn hnw a b (zeros n) (ofULL n 1) false false ha hb hao hbo hz]
      at hRdef
    rw [show ((false : Bool) != false) = false from rfl, if_neg Bool.false_ne_true,
      if_neg Bool.false_ne_true] at hRdef
    have hlenab : a.length = b.length := ha.trans hb.symm
    have hql : (div a b).length = n := (div_shape a b hlenab hao hbo).1.trans ha
    have hqzv : toVal (mul (div a b) (zeros n)) = 0 := by
      rw [mul_val _ _ (by rw [hql, zeros_length]), toVal_zeros, Nat.mul_zero, Nat.zero_mod]
    have hgt1 : gt (ofULL n 1) (mul (div a b) (zeros n)) = true := by
      apply gt_right_zero _ _ (by rw [ofULL_length, mul_length, hql]) hqzv
      rw [ofULL_one_val n hn]
      omega
    rw [hgt1, if_pos rfl, if_pos rfl] at hRdef
    have hbneB : toVal b ≠ 0 := by omega
    have hM : toVal (mod a b) = toVal a % toVal b :=
      mod_val_eq a b hlenab hao hbo (by omega) hbneB (by rw [ha]; exact hnw)
    have hx0v : toVal (sub (ofULL n 1) (mul (div a b) (zeros n))) = 1 := by
      rw [sub_val_ge _ _ (by rw [ofULL_length, mul_length, hql]) (ofULL_ok n 1)
        (mul_ok _ _) (by rw [hqzv]; exact Nat.zero_le _), hqzv, ofULL_one_val n hn]
    have hspec := inverseLoop_spec n hn hnw (toVal b) (toVal a) hb2 hB0M
      (toVal (mod a b)) b (mod a b) (sub (ofULL n 1) (mul (div a b) (zeros n))) (zeros n)
      false false hb ((mod_shape a b (ha.trans hb.symm) hao hbo).1.trans ha) hbo
      (mod_shape a b (ha.trans hb.symm) hao hbo).2 rfl
      (by rw [sub_length _ _ (by rw [ofULL_length, mul_length, hql]), ofULL_length])
      (zeros_length n) (sub_ok _ _) (zeros_ok n)
      (by rw [hM]; exact Nat.mod_lt _ (by omega)) (le_refl _)
      (by rw [hM]; exact gcd_step _ _ hg)
      (by
        have h0 : sv (zeros n) false = 0 := by simp [sv, toVal_zeros]
        rw [h0, Int.mul_zero]
        exact (dvd_refl _).zero_modEq_int)
      (by
        have h1 : sv (sub (ofULL n 1) (mul (div a b) (zeros n))) false = 1 := by
          simp [sv, hx0v]
        rw [h1, Int.mul_one, hM]
        exact Int.natCast_modEq_iff.mpr (Nat.mod_modEq _ _).symm)
      (by rw [hx0v, toVal_zeros, Nat.one_mul, Nat.zero_mul, Nat.add_zero])
      (by rw [toVal_zeros, hx0v]; omega)
      (Or.inr ⟨rfl, rfl, toVal_zeros n⟩)
    rw [← hRdef] at hspec
    exact discharge hspec.1 hspec.2.1 hspec.2.2.1 hspec.2.2.2

/-- C7 witness: at the concrete 64-bit inputs `a = 3`, `b = 11` the
corrected statement pins the program's result to the unique reduced
inverse: `inverse(3, 11)` has value 4, matching `3 * 4 ≡ 1 (mod 11)`. -/
theorem C7_inverse_amended_witness :
    toVal (inverse 2 (by norm_num) (by norm_num) (ofULL 2 3) (ofULL 2 11)
      (ofULL_length 2 3) (ofULL_length 2 11) (ofULL_ok 2 3) (ofULL_ok 2 11)) = 4 := by
  have h := C7_inverse_amended 2 (by norm_num) (by norm_num) (ofULL 2 3) (ofULL 2 11)
    (ofULL_length 2 3) (ofULL_length 2 11) (ofULL_ok 2 3) (ofULL_ok 2 11)
    (by decide) (by decide)
  rcases h with ⟨h1, h2⟩
  rw [show toVal (ofULL 2 11) = 11 from by decide] at h1 h2
  rw [show toVal (ofULL 2 3) = 3 from by decide] at h2
  set v := toVal (inverse 2 (by norm_num) (by norm_num) (ofULL 2 3) (ofULL 2 11)
    (ofULL_length 2 3) (ofULL_length 2 11) (ofULL_ok 2 3) (ofULL_ok 2 11)) with hv
  interval_cases v <;> omega

end Bigint
